import Mathlib

set_option linter.unusedSectionVars false
set_option linter.deprecated false

/-!
Verification of the Robin Hood open-addressing hash table in src/hash_map.h.

The C++ class `HashMap<KeyType, ValueType, Hash>` is embedded shallowly:

* a slot (`struct Node`) carries a key/value pair, an `int status`
  (-1 = empty, 1 = occupied, 0 = tombstone, modelled by the `Status`
  enumeration) and a probe distance `dist_to_ideal`;
* the table state is the record of the private members
  `hasher_, data_, cnt_all_, cnt_dead_, buffer_size_`;
* machine `size_t` arithmetic is modelled by `Nat` (all quantities involved
  are small counts and indices, no overflow is reachable);
* the floating-point growth test `buffer_size_ * 0.5 < cnt_all_` is exact for
  the powers of two the capacity ranges over, and is modelled by the
  equivalent integer test `buffer_size < 2 * cnt_all`;
* the recursion insert → resize → insert present in the source is modelled
  with an explicit fuel parameter (`insertFuel`); fuel 2 is sufficient for
  every state whose slot array is no longer than its capacity, because after
  doubling, the replayed occupied entries number at most half the new
  capacity and can never re-trigger the growth test (proved below in
  `rehash_no_retrigger` / `insert_eq_NR`).

Keys need decidable equality (`operator==` on `KeyType`), and default values
(`Inhabited`) model the default constructors used by `Node()` and
`operator[]`.
-/

namespace RobinHood

variable {K V : Type} [DecidableEq K] [Inhabited K] [Inhabited V]

/-- Status tag of a slot: the C++ code stores `int status` with
-1 = empty (`Node()`), 1 = occupied, 0 = tombstone (set by `erase`). -/
inductive Status where
  | empty : Status
  | occupied : Status
  | tombstone : Status
deriving DecidableEq, Repr

/-- A slot of the table, `struct Node` of src/hash_map.h: a key/value pair,
a status tag and the probe distance `dist_to_ideal`. -/
structure Node (K V : Type) where
  key : K
  value : V
  status : Status
  dist_to_ideal : Nat
deriving DecidableEq, Repr

/-- The default slot, `Node()`: default key/value pair, `status = -1`
(empty), `dist_to_ideal = 0`. -/
def Node.dflt [Inhabited K] [Inhabited V] : Node K V :=
  { key := default, value := default, status := Status.empty, dist_to_ideal := 0 }

/-- The table state: the private members of `HashMap`.  `data` is the slot
vector `data_`, `cnt_all` counts occupied-plus-tombstone slots, `cnt_dead`
counts tombstones, `buffer_size` is the capacity. -/
structure HashMap (K V : Type) where
  hasher : K → Nat
  data : List (Node K V)
  cnt_all : Nat
  cnt_dead : Nat
  buffer_size : Nat

/-- Read the slot at index `j` (the C++ `data_[index]`; in-range in every
execution of the source, out-of-range reads default to the empty node). -/
def slotL (data : List (Node K V)) (j : Nat) : Node K V :=
  data.getD j Node.dflt

/-- Slot accessor on a table state. -/
def HashMap.slot (s : HashMap K V) (j : Nat) : Node K V :=
  slotL s.data j

/-- Probe position number `t` of the linear scan starting at hash value
`h1`: the C++ `index = (h1 + i) % buffer_size_`. -/
def probe (cap h1 t : Nat) : Nat :=
  (h1 + t) % cap

/-- The private `get_hash`: `hasher_(k) % buffer_size_`. -/
def HashMap.get_hash (s : HashMap K V) (k : K) : Nat :=
  s.hasher k % s.buffer_size

/-- The scan loop of `HashMap::find`, iteration variable `i`: return the
index of the first occupied slot whose key matches, stop with `buffer_size_`
(the `end()` position) on the first empty slot or after a full wrap. -/
def findAux (data : List (Node K V)) (cap h1 : Nat) (key : K) (i : Nat) : Nat :=
  if i < cap then
    let index := (h1 + i) % cap
    let nd := slotL data index
    if nd.status = Status.occupied ∧ nd.key = key then index
    else if nd.status = Status.empty then cap
    else findAux data cap h1 key (i + 1)
  else cap
termination_by cap - i
decreasing_by simp_wf; omega

/-- `HashMap::find`: the slot index of the returned iterator
(`buffer_size_` encodes `end()`). -/
def HashMap.findIdx (s : HashMap K V) (key : K) : Nat :=
  findAux s.data s.buffer_size (s.get_hash key) key 0

/-- The scan loop of `HashMap::erase`: tombstone a matching occupied slot
and bump the dead count, keep scanning, stop at the first empty slot. -/
def eraseAux (data : List (Node K V)) (cap h1 : Nat) (key : K) (cd i : Nat) :
    List (Node K V) × Nat :=
  if i < cap then
    let index := (h1 + i) % cap
    let nd := slotL data index
    let hit := nd.status = Status.occupied ∧ nd.key = key
    let data' := if hit then data.set index { nd with status := Status.tombstone } else data
    let cd' := if hit then cd + 1 else cd
    if (slotL data' index).status = Status.empty then (data', cd')
    else eraseAux data' cap h1 key cd' (i + 1)
  else (data, cd)
termination_by cap - i
decreasing_by simp_wf; omega

/-- `HashMap::erase`. -/
def HashMap.erase (s : HashMap K V) (key : K) : HashMap K V :=
  let r := eraseAux s.data s.buffer_size (s.get_hash key) key s.cnt_dead 0
  { s with data := r.1, cnt_dead := r.2 }

/-- The scan loop of `HashMap::insert`.  Arguments mirror the loop state of
the source: the carried pair `kv` (`keyvalue`), its distance `curDist`
(`cur_dist_to_ideal`), the first displacement position `insIdx`
(`insert_index`, `none` encodes -1) and the iteration count `i`.  The result
is the new slot array, the index of the returned iterator (`cap` encodes the
fall-through `end()`), and whether a slot was filled (`cnt_all_++`). -/
def insertAux (data : List (Node K V)) (cap h1 : Nat) (key : K) (kv : K × V)
    (curDist : Nat) (insIdx : Option Nat) (i : Nat) :
    List (Node K V) × Nat × Bool :=
  if i < cap then
    let index := (h1 + i) % cap
    let nd := slotL data index
    if nd.status = Status.occupied ∧ nd.key = key then (data, index, false)
    else if nd.status = Status.empty then
      (data.set index { key := kv.1, value := kv.2, status := Status.occupied,
                        dist_to_ideal := curDist },
       insIdx.getD index, true)
    else if nd.status = Status.occupied ∧ nd.dist_to_ideal < curDist then
      insertAux
        (data.set index { key := kv.1, value := kv.2, status := Status.occupied,
                          dist_to_ideal := curDist })
        cap h1 key (nd.key, nd.value) (nd.dist_to_ideal + 1)
        (some (insIdx.getD index)) (i + 1)
    else insertAux data cap h1 key kv (curDist + 1) insIdx (i + 1)
  else (data, cap, false)
termination_by cap - i
decreasing_by all_goals simp_wf; omega

/-- The body of `HashMap::insert` after the initial `resize()` call:
compute the hash of the key and run the scan loop. -/
def HashMap.insertNR (s : HashMap K V) (kv : K × V) : HashMap K V × Nat :=
  let r := insertAux s.data s.buffer_size (s.get_hash kv.1) kv.1 kv 0 none 0
  ({ s with data := r.1, cnt_all := s.cnt_all + (if r.2.2 then 1 else 0) }, r.2.1)

/-- A freshly allocated slot vector of the given capacity
(`std::vector<Node> data_2(buffer_size_)`), every slot empty. -/
def freshData (cap : Nat) : List (Node K V) :=
  List.replicate cap Node.dflt

/-- `HashMap::insert` with explicit fuel for the insert → resize → insert
recursion of the source.  A fuel step first performs the growth check of
`HashMap::resize` — if `buffer_size_ * 0.5 < cnt_all_` (exactly
`buffer_size < 2 * cnt_all` for the power-of-two capacities), double the
capacity, reset both counters, and replay every occupied slot of the old
array in slot order through `insert` — and then runs the scan loop. -/
def insertFuel : Nat → HashMap K V → K × V → HashMap K V × Nat
  | 0, s, _ => (s, s.buffer_size)
  | f + 1, s, kv =>
    let s' :=
      if s.buffer_size < 2 * s.cnt_all then
        s.data.foldl
          (fun acc nd =>
            if nd.status = Status.occupied then (insertFuel f acc (nd.key, nd.value)).1
            else acc)
          { hasher := s.hasher, data := freshData (2 * s.buffer_size),
            cnt_all := 0, cnt_dead := 0, buffer_size := 2 * s.buffer_size }
      else s
    s'.insertNR kv

/-- The effect of `HashMap::resize` when the replayed insertions perform no
nested growth (proved equivalent to the fuelled version on every state whose
slot array fits its capacity, `insert_eq_NR` below). -/
def HashMap.resizeNR (s : HashMap K V) : HashMap K V :=
  if s.buffer_size < 2 * s.cnt_all then
    s.data.foldl
      (fun acc nd =>
        if nd.status = Status.occupied then (acc.insertNR (nd.key, nd.value)).1
        else acc)
      { hasher := s.hasher, data := freshData (2 * s.buffer_size),
        cnt_all := 0, cnt_dead := 0, buffer_size := 2 * s.buffer_size }
  else s

/-- `HashMap::insert` (public entry point): fuel 2 covers the only growth
level reachable from states whose slot array fits its capacity. -/
def HashMap.insert (s : HashMap K V) (kv : K × V) : HashMap K V × Nat :=
  insertFuel 2 s kv

/-- `HashMap::size`: `cnt_all_ - cnt_dead_`. -/
def HashMap.size (s : HashMap K V) : Nat :=
  s.cnt_all - s.cnt_dead

/-- The default-constructed table `HashMap(Hash hasher_)`: capacity
`default_size_ = 16`, zero counters, all slots empty. -/
def HashMap.mk0 (hasher : K → Nat) : HashMap K V :=
  { hasher := hasher, data := freshData 16, cnt_all := 0, cnt_dead := 0,
    buffer_size := 16 }

/-- `HashMap::operator=`: copy every member from `src` (the copy
constructor `HashMap(const HashMap&)` delegates to it). -/
def copyAssign (dst src : HashMap K V) : HashMap K V :=
  let _ := dst
  { hasher := src.hasher, data := src.data, cnt_all := src.cnt_all,
    cnt_dead := src.cnt_dead, buffer_size := src.buffer_size }

/-- `HashMap::clear`: `*this = HashMap(hasher_)`. -/
def HashMap.clear (s : HashMap K V) : HashMap K V :=
  copyAssign s (HashMap.mk0 s.hasher)

/-- Value stored at a slot index, the C++ `it->second` dereference. -/
def HashMap.refAt (s : HashMap K V) (j : Nat) : V :=
  (s.slot j).value

/-- `HashMap::at`: find, and throw `std::out_of_range` when the iterator
equals `end()` (index `data_.size()`); otherwise the stored value. -/
def HashMap.atKey (s : HashMap K V) (k : K) : Except String V :=
  let i := s.findIdx k
  if i = s.data.length then Except.error "very sad:("
  else Except.ok (s.refAt i)

/-- `HashMap::operator[]`: find, on miss insert a default-constructed
value, and return the table together with the dereferenced value. -/
def HashMap.opIndex (s : HashMap K V) (k : K) : HashMap K V × V :=
  let i := s.findIdx k
  if i = s.data.length then
    let r := s.insert (k, default)
    (r.1, r.1.refAt r.2)
  else (s, s.refAt i)

/-- Construction from a sequence of key/value pairs (the iterator-range and
`initializer_list` constructors): start empty, replay `insert` in order. -/
def HashMap.ofList (hasher : K → Nat) (l : List (K × V)) : HashMap K V :=
  l.foldl (fun s kv => (s.insert kv).1) (HashMap.mk0 hasher)

/-- A public operation of the table, used to quantify over every reachable
state. -/
inductive Op (K V : Type) where
  | ins : K × V → Op K V
  | del : K → Op K V
  | clr : Op K V
  | idx : K → Op K V

/-- Apply one public operation. -/
def step (s : HashMap K V) : Op K V → HashMap K V
  | Op.ins kv => (s.insert kv).1
  | Op.del k => s.erase k
  | Op.clr => s.clear
  | Op.idx k => (s.opIndex k).1

/-- Run a sequence of public operations from a default-constructed table. -/
def run (hasher : K → Nat) (ops : List (Op K V)) : HashMap K V :=
  ops.foldl step (HashMap.mk0 hasher)

/-- Occupied key/value pairs of a slot array, in slot order. -/
def occlist (l : List (Node K V)) : List (K × V) :=
  (l.filter fun nd => nd.status = Status.occupied).map fun nd => (nd.key, nd.value)

/-- Number of non-empty (occupied or tombstone) slots. -/
def countNE (l : List (Node K V)) : Nat :=
  l.countP fun nd => decide (nd.status ≠ Status.empty)

/-- Number of tombstone slots. -/
def countTomb (l : List (Node K V)) : Nat :=
  l.countP fun nd => decide (nd.status = Status.tombstone)

/-- Number of occupied slots. -/
def countOcc (l : List (Node K V)) : Nat :=
  l.countP fun nd => decide (nd.status = Status.occupied)

/-- The set of keys held by occupied slots. -/
def liveKeys (s : HashMap K V) : Finset K :=
  (Multiset.map Prod.fst (occlist s.data : Multiset (K × V))).toFinset

/-- Specification-level key set: the keys inserted and not subsequently
erased by a command sequence (`operator[]` inserts on miss, `clear` empties
the table). -/
def modelKeys (ops : List (Op K V)) : Finset K :=
  ops.foldl
    (fun M op =>
      match op with
      | Op.ins kv => insert kv.1 M
      | Op.del k => M.erase k
      | Op.clr => (∅ : Finset K)
      | Op.idx k => insert k M)
    (∅ : Finset K)

/-- Structural invariant of the slot array (relative to a hasher and a
capacity): part 1, key uniqueness among occupied slots. -/
def UniqInv (cap : Nat) (data : List (Node K V)) : Prop :=
  ∀ i < cap, ∀ j < cap,
    (slotL data i).status = Status.occupied →
    (slotL data j).status = Status.occupied →
    (slotL data i).key = (slotL data j).key → i = j

/-- Part 2: the stored `dist_to_ideal` of an occupied slot is the distance
(mod capacity) from the slot its key hashes to. -/
def DistEq (hasher : K → Nat) (cap : Nat) (data : List (Node K V)) : Prop :=
  ∀ j < cap, (slotL data j).status = Status.occupied →
    (slotL data j).dist_to_ideal < cap ∧
    (hasher (slotL data j).key % cap + (slotL data j).dist_to_ideal) % cap = j

/-- Part 3: probe-chain integrity — from the ideal slot of an occupied
slot's key up to (excluding) the slot itself there is no empty slot. -/
def ChainInv (hasher : K → Nat) (cap : Nat) (data : List (Node K V)) : Prop :=
  ∀ j < cap, (slotL data j).status = Status.occupied →
    ∀ t < (slotL data j).dist_to_ideal,
      (slotL data (probe cap (hasher (slotL data j).key % cap) t)).status ≠ Status.empty

/-- Part 4: the Robin Hood ordering — an occupied slot scanned on the way
from an occupied slot's ideal position to its actual position is at least
as far from its own ideal position as the scan is. -/
def RichInv (hasher : K → Nat) (cap : Nat) (data : List (Node K V)) : Prop :=
  ∀ j < cap, (slotL data j).status = Status.occupied →
    ∀ t < (slotL data j).dist_to_ideal,
      (slotL data (probe cap (hasher (slotL data j).key % cap) t)).status = Status.occupied →
      t ≤ (slotL data (probe cap (hasher (slotL data j).key % cap) t)).dist_to_ideal

/-- Structural invariant of a table state. -/
def TableInv (s : HashMap K V) : Prop :=
  s.data.length = s.buffer_size ∧
  16 ≤ s.buffer_size ∧
  s.cnt_all = countNE s.data ∧
  s.cnt_dead = countTomb s.data ∧
  UniqInv s.buffer_size s.data ∧
  DistEq s.hasher s.buffer_size s.data ∧
  ChainInv s.hasher s.buffer_size s.data ∧
  RichInv s.hasher s.buffer_size s.data

/-- Full invariant: structure plus the load bound maintained by the growth
policy (`cnt_all_` can exceed half the capacity by at most one, namely right
after the placement that follows a growth check). -/
def WF (s : HashMap K V) : Prop :=
  TableInv s ∧ 2 * s.cnt_all ≤ s.buffer_size + 2

/-- Match at probe step `t` of the scan for `k`: occupied slot, equal key. -/
def matchAt (s : HashMap K V) (k : K) (t : Nat) : Prop :=
  (s.slot (probe s.buffer_size (s.get_hash k) t)).status = Status.occupied ∧
  (s.slot (probe s.buffer_size (s.get_hash k) t)).key = k

/-- Empty slot at probe step `t` of the scan for `k`. -/
def emptyAt (s : HashMap K V) (k : K) (t : Nat) : Prop :=
  (s.slot (probe s.buffer_size (s.get_hash k) t)).status = Status.empty

/-- Match condition of the scans at probe step `t` (slot-array form). -/
def scanMatch (data : List (Node K V)) (cap h1 : Nat) (key : K) (t : Nat) : Prop :=
  (slotL data (probe cap h1 t)).status = Status.occupied ∧
  (slotL data (probe cap h1 t)).key = key

/-- Empty-slot condition of the scans at probe step `t` (slot-array form). -/
def scanEmpty (data : List (Node K V)) (cap h1 t : Nat) : Prop :=
  (slotL data (probe cap h1 t)).status = Status.empty

/-- Outcome of the `insert` scan for an absent key: a single formerly empty
slot became occupied, the carried pair was added to the occupied pairs, the
returned index holds the inserted pair, and all structural invariants hold
again. -/
structure InsOut (hasher : K → Nat) (cap h1 : Nat) (key₀ : K) (v₀ : V)
    (data₀ : List (Node K V)) (out : List (Node K V) × Nat × Bool) : Prop where
  placed : out.2.2 = true
  len : out.1.length = data₀.length
  statuses : ∃ p0 < cap, (slotL data₀ p0).status = Status.empty ∧
    (slotL out.1 p0).status = Status.occupied ∧
    ∀ j, j ≠ p0 → (slotL out.1 j).status = (slotL data₀ j).status
  pairs : (occlist out.1 : Multiset (K × V)) =
    (occlist data₀ : Multiset (K × V)) + {(key₀, v₀)}
  ret_lt : out.2.1 < cap
  ret_occ : (slotL out.1 out.2.1).status = Status.occupied
  ret_key : (slotL out.1 out.2.1).key = key₀
  ret_val : (slotL out.1 out.2.1).value = v₀
  uniq : UniqInv cap out.1
  distEq : DistEq hasher cap out.1
  chain : ChainInv hasher cap out.1
  rich : RichInv hasher cap out.1

/-- Invariant of the `insert` scan loop for an absent key, after `i`
iterations with carried pair `kv`, carried distance `c` and recorded first
displacement index `insIdx`. -/
structure LoopInv (hasher : K → Nat) (cap h1 : Nat) (key₀ : K) (v₀ : V)
    (data₀ data : List (Node K V)) (kv : K × V) (c i : Nat) (insIdx : Option Nat) : Prop where
  len : data.length = data₀.length
  lencap : data₀.length = cap
  stat : ∀ j, (slotL data j).status = (slotL data₀ j).status
  pairs : (occlist data : Multiset (K × V)) + {kv} =
    (occlist data₀ : Multiset (K × V)) + {(key₀, v₀)}
  carried : (hasher kv.1 % cap + c) % cap = (h1 + i) % cap
  cle : c ≤ i
  fresh : ∀ j < cap, (slotL data j).status = Status.occupied → (slotL data j).key ≠ kv.1
  uniq : UniqInv cap data
  distEq : DistEq hasher cap data
  chain : ChainInv hasher cap data
  rich : RichInv hasher cap data
  scanned : ∀ t < i, (slotL data (probe cap h1 t)).status ≠ Status.empty
  dloop : ∀ t < i, (slotL data (probe cap h1 t)).status = Status.occupied →
    t + c ≤ (slotL data (probe cap h1 t)).dist_to_ideal + i
  noMatch : ∀ t, i ≤ t → t < cap → ¬ scanMatch data cap h1 key₀ t
  insNone : insIdx = none → kv = (key₀, v₀) ∧ c = i
  insSome : ∀ p, insIdx = some p → p < cap ∧ (slotL data p).status = Status.occupied ∧
    (slotL data p).key = key₀ ∧ (slotL data p).value = v₀

instance UniqInv.dec (cap : Nat) (data : List (Node K V)) : Decidable (UniqInv cap data) := by
  unfold UniqInv
  infer_instance

instance DistEq.dec (hasher : K → Nat) (cap : Nat) (data : List (Node K V)) :
    Decidable (DistEq hasher cap data) := by
  unfold DistEq
  infer_instance

instance ChainInv.dec (hasher : K → Nat) (cap : Nat) (data : List (Node K V)) :
    Decidable (ChainInv hasher cap data) := by
  unfold ChainInv
  infer_instance

instance RichInv.dec (hasher : K → Nat) (cap : Nat) (data : List (Node K V)) :
    Decidable (RichInv hasher cap data) := by
  unfold RichInv
  infer_instance

instance TableInv.dec (s : HashMap K V) : Decidable (TableInv s) := by
  unfold TableInv
  infer_instance

instance WF.dec (s : HashMap K V) : Decidable (WF s) := by
  unfold WF
  infer_instance

/-- Witness state: a fresh table whose slot 0 holds the pair (0, 1). -/
def cxState : HashMap Nat Nat :=
  HashMap.mk (fun x => x) ((freshData 16).set 0 (Node.mk 0 1 Status.occupied 0)) 1 0 16

/-- Witness state: a fresh table whose slot 5 holds the pair (5, 10). -/
def c2State : HashMap Nat Nat :=
  HashMap.mk (fun x => x) ((freshData 16).set 5 (Node.mk 5 10 Status.occupied 0)) 1 0 16

/-- Witness state: a capacity-16 table holding the nine pairs (i, i) for
i < 9, which trips the growth test. -/
def c6State : HashMap Nat Nat :=
  HashMap.mk (fun x => x)
    ((List.range 9).foldl (fun l i => l.set i (Node.mk i i Status.occupied 0)) (freshData 16))
    9 0 16

/-- Witness state: a table holding (2,3), (-7,-13) and (0,8) under the
absolute-value hash. -/
def c7State : HashMap Int Int :=
  HashMap.mk (fun x : Int => x.natAbs)
    ((((freshData 16).set 2 (Node.mk 2 3 Status.occupied 0)).set 7
      (Node.mk (-7) (-13) Status.occupied 0)).set 0 (Node.mk 0 8 Status.occupied 0))
    3 0 16

lemma slotL_eq_get (l : List (Node K V)) {j : Nat} (h : j < l.length) :
    slotL l j = l.get ⟨j, h⟩ := by
  unfold slotL
  rw [List.getD_eq_getElem l _ h]
  simp

lemma slotL_set_self (l : List (Node K V)) {j : Nat} (h : j < l.length) (a : Node K V) :
    slotL (l.set j a) j = a := by
  unfold slotL List.getD
  rw [List.get?_set_eq_of_lt a h]
  rfl

lemma slotL_set_ne (l : List (Node K V)) {j j' : Nat} (h : j ≠ j') (a : Node K V) :
    slotL (l.set j a) j' = slotL l j' := by
  unfold slotL List.getD
  rw [List.get?_set_ne a l h]

lemma slotL_fresh (n j : Nat) : slotL (freshData n : List (Node K V)) j = Node.dflt := by
  unfold slotL freshData List.getD
  rcases Nat.lt_or_ge j n with h | h
  · rw [List.get?_eq_get (by simpa using h)]
    simp
  · rw [List.get?_eq_none.mpr (by simpa using h)]
    rfl

lemma freshData_length (n : Nat) : (freshData n : List (Node K V)).length = n := by
  simp [freshData]

lemma mod_add_cancel {x y d n : Nat} (h : (x + d) % n = (y + d) % n) : x % n = y % n := by
  rcases Nat.eq_zero_or_pos n with rfl | hn
  · simpa using h
  · have hx : (x % n + d % n) % n = (y % n + d % n) % n := by
      rw [Nat.add_mod x d, Nat.add_mod y d] at h
      exact h
    have ex : ∀ a e : Nat, a < n → e < n → (a + e) % n =
        if a + e < n then a + e else a + e - n := by
      intro a e ha he
      split
      · exact Nat.mod_eq_of_lt (by assumption)
      · rw [Nat.mod_eq_sub_mod (by omega)]
        exact Nat.mod_eq_of_lt (by omega)
    have h1 := ex (x % n) (d % n) (Nat.mod_lt _ hn) (Nat.mod_lt _ hn)
    have h2 := ex (y % n) (d % n) (Nat.mod_lt _ hn) (Nat.mod_lt _ hn)
    rw [h1, h2] at hx
    have hxlt := Nat.mod_lt x hn
    have hylt := Nat.mod_lt y hn
    have hdlt := Nat.mod_lt d hn
    split at hx <;> split at hx <;> omega

lemma mod_add_congr {a b k n : Nat} (h : a % n = b % n) : (a + k) % n = (b + k) % n := by
  rw [← Nat.mod_add_mod a n k, ← Nat.mod_add_mod b n k, h]

lemma probe_lt {cap : Nat} (h : 0 < cap) (h1 t : Nat) : probe cap h1 t < cap :=
  Nat.mod_lt _ h

lemma probe_inj {cap h1 t u : Nat} (ht : t < cap) (hu : u < cap)
    (h : probe cap h1 t = probe cap h1 u) : t = u := by
  unfold probe at h
  have h' : (t + h1) % cap = (u + h1) % cap := by
    rw [Nat.add_comm t h1, Nat.add_comm u h1]
    exact h
  have := mod_add_cancel h'
  rw [Nat.mod_eq_of_lt ht, Nat.mod_eq_of_lt hu] at this
  exact this

lemma probe_surj {cap : Nat} (h1 : Nat) {j : Nat} (hj : j < cap) :
    ∃ t < cap, probe cap h1 t = j := by
  have hcap : 0 < cap := Nat.lt_of_le_of_lt (Nat.zero_le _) hj
  refine ⟨(cap + j - h1 % cap) % cap, Nat.mod_lt _ hcap, ?_⟩
  unfold probe
  have e0 : (h1 + (cap + j - h1 % cap) % cap) % cap = (h1 + (cap + j - h1 % cap)) % cap := by
    rw [Nat.add_comm h1 _, Nat.mod_add_mod, Nat.add_comm _ h1]
  rw [e0]
  have h2 : h1 % cap < cap := Nat.mod_lt _ hcap
  have h3 := Nat.mod_add_div h1 cap
  have e1 : h1 + (cap + j - h1 % cap) = cap * (h1 / cap + 1) + j := by
    have : cap * (h1 / cap + 1) = cap * (h1 / cap) + cap := by ring
    omega
  rw [e1, Nat.mul_add_mod, Nat.mod_eq_of_lt hj]

lemma probe_shift {a b c i t cap : Nat} (h : (a + c) % cap = (b + i) % cap)
    (htc : t ≤ c) (hci : c ≤ i) :
    (a + t) % cap = (b + (i - c + t)) % cap := by
  apply mod_add_cancel (d := c - t)
  have e1 : a + t + (c - t) = a + c := by omega
  have e2 : b + (i - c + t) + (c - t) = b + i := by omega
  rw [e1, e2]
  exact h

lemma countP_set (l : List (Node K V)) {j : Nat} (h : j < l.length)
    (p : Node K V → Bool) (a : Node K V) :
    (l.set j a).countP p + (if p (slotL l j) then 1 else 0) =
      l.countP p + (if p a then 1 else 0) := by
  have hdec : l = l.take j ++ l.get ⟨j, h⟩ :: l.drop (j + 1) := by
    conv_lhs => rw [← List.take_append_drop j l]
    rw [← List.get_cons_drop l ⟨j, h⟩]
  have hset : l.set j a = l.take j ++ a :: l.drop (j + 1) :=
    List.set_eq_take_cons_drop a h
  rw [slotL_eq_get l h, hset]
  conv_rhs => rw [hdec]
  rw [List.countP_append, List.countP_append, List.countP_cons, List.countP_cons]
  by_cases h1 : p a <;> by_cases h2 : p (l.get ⟨j, h⟩) <;> simp [h1, h2] <;> omega

lemma counts_congr (l₁ l₂ : List (Node K V)) (hlen : l₁.length = l₂.length)
    (h : ∀ j < l₁.length, (slotL l₁ j).status = (slotL l₂ j).status) :
    countNE l₁ = countNE l₂ ∧ countTomb l₁ = countTomb l₂ ∧ countOcc l₁ = countOcc l₂ := by
  induction l₁ generalizing l₂ with
  | nil =>
    have : l₂ = [] := by
      cases l₂ with
      | nil => rfl
      | cons b t => simp at hlen
    subst this
    exact ⟨rfl, rfl, rfl⟩
  | cons a t ih =>
    cases l₂ with
    | nil => simp at hlen
    | cons b t₂ =>
      have h0 := h 0 (by simp)
      have hs : a.status = b.status := by
        simpa [slotL] using h0
      have ht : ∀ j < t.length, (slotL t j).status = (slotL t₂ j).status := by
        intro j hj
        have := h (j + 1) (by simp; omega)
        simpa [slotL] using this
      have := ih t₂ (by simpa using hlen) ht
      unfold countNE countTomb countOcc at *
      rw [List.countP_cons, List.countP_cons, List.countP_cons, List.countP_cons,
        List.countP_cons, List.countP_cons, hs]
      omega

lemma countNE_eq (l : List (Node K V)) : countNE l = countOcc l + countTomb l := by
  induction l with
  | nil => rfl
  | cons a t ih =>
    unfold countNE countOcc countTomb at ih ⊢
    rw [List.countP_cons, List.countP_cons, List.countP_cons]
    cases h : a.status <;> simp [h] at ih ⊢ <;> omega

lemma exists_empty_of_countNE_lt {l : List (Node K V)} (h : countNE l < l.length) :
    ∃ j < l.length, (slotL l j).status = Status.empty := by
  by_contra hc
  push_neg at hc
  have hall : ∀ x ∈ l, decide (x.status ≠ Status.empty) = true := by
    intro x hx
    obtain ⟨⟨n, hn⟩, rfl⟩ := List.mem_iff_get.mp hx
    have := hc n hn
    rw [slotL_eq_get l hn] at this
    simpa using this
  have : countNE l = l.length := by
    unfold countNE
    exact List.countP_eq_length.mpr hall
  omega

lemma occlist_append (l₁ l₂ : List (Node K V)) :
    occlist (l₁ ++ l₂) = occlist l₁ ++ occlist l₂ := by
  unfold occlist
  simp

lemma occlist_cons (a : Node K V) (l : List (Node K V)) :
    occlist (a :: l) =
      (if a.status = Status.occupied then [(a.key, a.value)] else []) ++ occlist l := by
  unfold occlist
  by_cases h : a.status = Status.occupied <;> simp [List.filter_cons, h]

lemma occ_set (l : List (Node K V)) {j : Nat} (h : j < l.length) (a : Node K V) :
    (occlist (l.set j a) : Multiset (K × V)) + occlist [slotL l j] =
      (occlist l : Multiset (K × V)) + occlist [a] := by
  have hdec : l = l.take j ++ l.get ⟨j, h⟩ :: l.drop (j + 1) := by
    conv_lhs => rw [← List.take_append_drop j l]
    rw [← List.get_cons_drop l ⟨j, h⟩]
  have hset : l.set j a = l.take j ++ a :: l.drop (j + 1) :=
    List.set_eq_take_cons_drop a h
  have ea : occlist [a] = (if a.status = Status.occupied then [(a.key, a.value)] else []) := by
    rw [occlist_cons]
    simp [occlist]
  have eg : occlist [l.get ⟨j, h⟩] =
      (if (l.get ⟨j, h⟩).status = Status.occupied
        then [((l.get ⟨j, h⟩).key, (l.get ⟨j, h⟩).value)] else []) := by
    rw [occlist_cons]
    simp [occlist]
  have L1 : occlist (l.set j a) = occlist (l.take j) ++
      ((if a.status = Status.occupied then [(a.key, a.value)] else []) ++
        occlist (l.drop (j + 1))) := by
    rw [hset, occlist_append, occlist_cons]
  have L2 : occlist l = occlist (l.take j) ++
      ((if (l.get ⟨j, h⟩).status = Status.occupied
          then [((l.get ⟨j, h⟩).key, (l.get ⟨j, h⟩).value)] else []) ++
        occlist (l.drop (j + 1))) := by
    conv_lhs => rw [hdec]
    rw [occlist_append, occlist_cons]
  have cadd : ∀ x y : List (K × V),
      ((x ++ y : List (K × V)) : Multiset (K × V)) = (x : Multiset (K × V)) + y :=
    fun x y => rfl
  rw [slotL_eq_get l h, L1, L2, ea, eg, cadd, cadd, cadd, cadd]
  abel

lemma length_occlist (l : List (Node K V)) : (occlist l).length = countOcc l := by
  unfold occlist countOcc
  rw [List.length_map]
  exact (List.countP_eq_length_filter _ _).symm

lemma mem_occlist {l : List (Node K V)} {kv : K × V} :
    kv ∈ occlist l ↔
      ∃ j < l.length, (slotL l j).status = Status.occupied ∧
        (slotL l j).key = kv.1 ∧ (slotL l j).value = kv.2 := by
  constructor
  · intro h
    unfold occlist at h
    obtain ⟨nd, hnd, hkv⟩ := List.mem_map.mp h
    obtain ⟨hmem, hstat⟩ := List.mem_filter.mp hnd
    obtain ⟨⟨n, hn⟩, rfl⟩ := List.mem_iff_get.mp hmem
    refine ⟨n, hn, ?_, ?_, ?_⟩
    · rw [slotL_eq_get l hn]
      simpa using hstat
    · rw [slotL_eq_get l hn, ← hkv]
    · rw [slotL_eq_get l hn, ← hkv]
  · rintro ⟨j, hj, hocc, hk, hv⟩
    unfold occlist
    apply List.mem_map.mpr
    refine ⟨slotL l j, ?_, by rw [hk, hv]⟩
    apply List.mem_filter.mpr
    constructor
    · rw [slotL_eq_get l hj]
      exact l.get_mem ..
    · simpa using hocc

lemma matchAt_eq (s : HashMap K V) (k : K) (t : Nat) :
    matchAt s k t ↔ scanMatch s.data s.buffer_size (s.get_hash k) k t := Iff.rfl

lemma emptyAt_eq (s : HashMap K V) (k : K) (t : Nat) :
    emptyAt s k t ↔ scanEmpty s.data s.buffer_size (s.get_hash k) t := Iff.rfl

lemma findAux_eq (data : List (Node K V)) (cap h1 : Nat) (key : K) (i : Nat) :
    findAux data cap h1 key i =
      if i < cap then
        if (slotL data ((h1 + i) % cap)).status = Status.occupied ∧
            (slotL data ((h1 + i) % cap)).key = key then (h1 + i) % cap
        else if (slotL data ((h1 + i) % cap)).status = Status.empty then cap
        else findAux data cap h1 key (i + 1)
      else cap := by
  rw [findAux]

lemma eraseAux_eq (data : List (Node K V)) (cap h1 : Nat) (key : K) (cd i : Nat) :
    eraseAux data cap h1 key cd i =
      if i < cap then
        let nd := slotL data ((h1 + i) % cap)
        let hit := nd.status = Status.occupied ∧ nd.key = key
        let data' := if hit then data.set ((h1 + i) % cap) { nd with status := Status.tombstone }
                     else data
        let cd' := if hit then cd + 1 else cd
        if (slotL data' ((h1 + i) % cap)).status = Status.empty then (data', cd')
        else eraseAux data' cap h1 key cd' (i + 1)
      else (data, cd) := by
  rw [eraseAux]

lemma insertAux_eq (data : List (Node K V)) (cap h1 : Nat) (key : K) (kv : K × V)
    (curDist : Nat) (insIdx : Option Nat) (i : Nat) :
    insertAux data cap h1 key kv curDist insIdx i =
      if i < cap then
        let nd := slotL data ((h1 + i) % cap)
        if nd.status = Status.occupied ∧ nd.key = key then (data, (h1 + i) % cap, false)
        else if nd.status = Status.empty then
          (data.set ((h1 + i) % cap)
            { key := kv.1, value := kv.2, status := Status.occupied, dist_to_ideal := curDist },
           insIdx.getD ((h1 + i) % cap), true)
        else if nd.status = Status.occupied ∧ nd.dist_to_ideal < curDist then
          insertAux
            (data.set ((h1 + i) % cap)
              { key := kv.1, value := kv.2, status := Status.occupied, dist_to_ideal := curDist })
            cap h1 key (nd.key, nd.value) (nd.dist_to_ideal + 1)
            (some (insIdx.getD ((h1 + i) % cap))) (i + 1)
        else insertAux data cap h1 key kv (curDist + 1) insIdx (i + 1)
      else (data, cap, false) := by
  rw [insertAux]

/-- Characterization of the `find` scan, for an arbitrary slot array: some
prefix of probe steps hits neither a key match nor an empty slot (those are
tombstones or occupied non-matching slots, which are skipped), and the scan
result is decided at the first stop — match, empty slot (miss), or a full
wrap (miss). -/
lemma findAux_char (data : List (Node K V)) (cap h1 : Nat) (key : K) :
    ∀ n i, cap - i = n → i ≤ cap →
    ∃ t, i ≤ t ∧ t ≤ cap ∧
      (∀ u, i ≤ u → u < t → ¬ scanMatch data cap h1 key u ∧ ¬ scanEmpty data cap h1 u) ∧
      ((t = cap ∧ findAux data cap h1 key i = cap) ∨
       (t < cap ∧ scanMatch data cap h1 key t ∧
         findAux data cap h1 key i = probe cap h1 t) ∨
       (t < cap ∧ ¬ scanMatch data cap h1 key t ∧ scanEmpty data cap h1 t ∧
         findAux data cap h1 key i = cap)) := by
  intro n
  induction n with
  | zero =>
    intro i hn hi
    have hieq : i = cap := by omega
    refine ⟨cap, by omega, le_refl _, ?_, Or.inl ⟨rfl, ?_⟩⟩
    · intro u hu1 hu2
      omega
    · rw [findAux_eq]
      simp [hieq]
  | succ n ih =>
    intro i hn hi
    have hilt : i < cap := by omega
    by_cases hm : scanMatch data cap h1 key i
    · refine ⟨i, le_refl _, le_of_lt hilt, ?_, Or.inr (Or.inl ⟨hilt, hm, ?_⟩)⟩
      · intro u hu1 hu2
        omega
      · rw [findAux_eq]
        have : (slotL data ((h1 + i) % cap)).status = Status.occupied ∧
            (slotL data ((h1 + i) % cap)).key = key := hm
        simp [hilt, this.1, this.2, probe]
    · by_cases he : scanEmpty data cap h1 i
      · refine ⟨i, le_refl _, le_of_lt hilt, ?_, Or.inr (Or.inr ⟨hilt, hm, he, ?_⟩)⟩
        · intro u hu1 hu2
          omega
        · rw [findAux_eq]
          have hnm : ¬ ((slotL data ((h1 + i) % cap)).status = Status.occupied ∧
              (slotL data ((h1 + i) % cap)).key = key) := hm
          have he' : (slotL data ((h1 + i) % cap)).status = Status.empty := he
          simp [hilt, hnm, he']
      · obtain ⟨t, ht1, ht2, ht3, ht4⟩ := ih (i + 1) (by omega) (by omega)
        have hstep : findAux data cap h1 key i = findAux data cap h1 key (i + 1) := by
          rw [findAux_eq]
          have hnm : ¬ ((slotL data ((h1 + i) % cap)).status = Status.occupied ∧
              (slotL data ((h1 + i) % cap)).key = key) := hm
          have hne : ¬ (slotL data ((h1 + i) % cap)).status = Status.empty := he
          simp [hilt, hnm, hne]
        refine ⟨t, by omega, ht2, ?_, by rw [hstep]; exact ht4⟩
        intro u hu1 hu2
        rcases Nat.eq_or_lt_of_le hu1 with rfl | hu
        · exact ⟨hm, he⟩
        · exact ht3 u (by omega) hu2

/-- The `find` scan reaches a slot whose probe chain is intact: if slot `j`
matches at probe distance `d` and no earlier probe step stops the scan,
the loop started anywhere at or before `d` returns `j`. -/
lemma findAux_reach (data : List (Node K V)) (cap h1 : Nat) (key : K) {j d : Nat}
    (hd : d < cap) (hj : probe cap h1 d = j)
    (hmatch : scanMatch data cap h1 key d)
    (hnostop : ∀ t < d, ¬ scanMatch data cap h1 key t ∧ ¬ scanEmpty data cap h1 t) :
    ∀ n t, d - t = n → t ≤ d → findAux data cap h1 key t = j := by
  intro n
  induction n with
  | zero =>
    intro t hn ht
    have : t = d := by omega
    subst this
    rw [findAux_eq]
    have h1m : (slotL data ((h1 + t) % cap)).status = Status.occupied ∧
        (slotL data ((h1 + t) % cap)).key = key := hmatch
    simp only [if_pos (show t < cap from hd), if_pos h1m]
    exact hj
  | succ n ih =>
    intro t hn ht
    have htd : t < d := by omega
    obtain ⟨hnm, hne⟩ := hnostop t htd
    rw [findAux_eq]
    have hnm' : ¬ ((slotL data ((h1 + t) % cap)).status = Status.occupied ∧
        (slotL data ((h1 + t) % cap)).key = key) := hnm
    have hne' : ¬ (slotL data ((h1 + t) % cap)).status = Status.empty := hne
    simp only [if_pos (show t < cap by omega), if_neg hnm', if_neg hne']
    exact ih (t + 1) (by omega) (by omega)

/-- The `erase` scan does nothing when no occupied slot ahead matches. -/
lemma eraseAux_nomatch (data : List (Node K V)) (cap h1 : Nat) (key : K) :
    ∀ n cd i, cap - i = n →
    (∀ t, i ≤ t → t < cap → ¬ scanMatch data cap h1 key t) →
    eraseAux data cap h1 key cd i = (data, cd) := by
  intro n
  induction n with
  | zero =>
    intro cd i hn hno
    rw [eraseAux_eq]
    simp only [if_neg (show ¬ i < cap by omega)]
  | succ n ih =>
    intro cd i hn hno
    have hilt : i < cap := by omega
    have hnm : ¬ ((slotL data ((h1 + i) % cap)).status = Status.occupied ∧
        (slotL data ((h1 + i) % cap)).key = key) := hno i (le_refl _) hilt
    rw [eraseAux_eq]
    simp only [if_pos hilt, if_neg hnm]
    by_cases he : (slotL data ((h1 + i) % cap)).status = Status.empty
    · simp [he]
    · simp only [if_neg he]
      exact ih cd (i + 1) (by omega) (fun t ht1 ht2 => hno t (by omega) ht2)

/-- The `erase` scan walks an intact probe chain to the matching slot `j`,
tombstones it, bumps the dead count, and the rest of the scan is a no-op. -/
lemma eraseAux_found (data : List (Node K V)) (cap h1 : Nat) (key : K) {j d : Nat}
    (hd : d < cap) (hj : probe cap h1 d = j) (hjlen : j < data.length)
    (hmatch : scanMatch data cap h1 key d)
    (hnostop : ∀ t < d, ¬ scanMatch data cap h1 key t ∧ ¬ scanEmpty data cap h1 t)
    (hafter : ∀ t, t < cap →
      ¬ scanMatch (data.set j { slotL data j with status := Status.tombstone }) cap h1 key t) :
    ∀ n cd t, d - t = n → t ≤ d →
      eraseAux data cap h1 key cd t =
        (data.set j { slotL data j with status := Status.tombstone }, cd + 1) := by
  intro n
  induction n with
  | zero =>
    intro cd t hn ht
    have : t = d := by omega
    subst this
    have hidx : (h1 + t) % cap = j := hj
    rw [eraseAux_eq]
    simp only [if_pos (show t < cap from hd), hidx]
    have hm : (slotL data j).status = Status.occupied ∧ (slotL data j).key = key := by
      have := hmatch
      unfold scanMatch at this
      rw [hj] at this
      exact this
    simp only [if_pos hm]
    have hset : (slotL (data.set j { slotL data j with status := Status.tombstone }) j).status =
        Status.tombstone := by
      rw [slotL_set_self data hjlen]
    rw [hset]
    simp only [if_neg (show ¬ Status.tombstone = Status.empty by simp)]
    exact eraseAux_nomatch _ cap h1 key (cap - (t + 1)) (cd + 1) (t + 1) rfl
      (fun u hu1 hu2 => hafter u hu2)
  | succ n ih =>
    intro cd t hn ht
    have htd : t < d := by omega
    obtain ⟨hnm, hne⟩ := hnostop t htd
    rw [eraseAux_eq]
    have hnm' : ¬ ((slotL data ((h1 + t) % cap)).status = Status.occupied ∧
        (slotL data ((h1 + t) % cap)).key = key) := hnm
    have hne' : ¬ (slotL data ((h1 + t) % cap)).status = Status.empty := hne
    simp only [if_pos (show t < cap by omega), if_neg hnm', if_neg hne']
    exact ih cd (t + 1) (by omega) (by omega)

/-- The `insert` scan walks an intact, Robin Hood-ordered probe chain to an
occupied slot holding the inserted key without displacing anything, and
returns that slot: duplicate insertion is a no-op. -/
lemma insertAux_reach (data : List (Node K V)) (cap h1 : Nat) (key : K) {j d : Nat}
    (hd : d < cap) (hj : probe cap h1 d = j)
    (hmatch : scanMatch data cap h1 key d)
    (hnostop : ∀ t < d, (¬ scanMatch data cap h1 key t ∧ ¬ scanEmpty data cap h1 t) ∧
       ((slotL data (probe cap h1 t)).status = Status.occupied →
         t ≤ (slotL data (probe cap h1 t)).dist_to_ideal)) :
    ∀ n t (kv : K × V) (insIdx : Option Nat), d - t = n → t ≤ d →
      insertAux data cap h1 key kv t insIdx t = (data, j, false) := by
  intro n
  induction n with
  | zero =>
    intro t kv insIdx hn ht
    have : t = d := by omega
    subst this
    have hidx : (h1 + t) % cap = j := hj
    rw [insertAux_eq]
    have hm : (slotL data j).status = Status.occupied ∧ (slotL data j).key = key := by
      have hx := hmatch
      unfold scanMatch at hx
      rw [hj] at hx
      exact hx
    simp only [if_pos (show t < cap from hd), hidx, if_pos hm]
  | succ n ih =>
    intro t kv insIdx hn ht
    have htd : t < d := by omega
    obtain ⟨⟨hnm, hne⟩, hrich⟩ := hnostop t htd
    rw [insertAux_eq]
    have hnm' : ¬ ((slotL data ((h1 + t) % cap)).status = Status.occupied ∧
        (slotL data ((h1 + t) % cap)).key = key) := hnm
    have hne' : ¬ (slotL data ((h1 + t) % cap)).status = Status.empty := hne
    have hnsw : ¬ ((slotL data ((h1 + t) % cap)).status = Status.occupied ∧
        (slotL data ((h1 + t) % cap)).dist_to_ideal < t) := by
      rintro ⟨hocc, hlt⟩
      have hrr := hrich hocc
      unfold probe at hrr
      omega
    simp only [if_pos (show t < cap by omega), if_neg hnm', if_neg hne', if_neg hnsw]
    exact ih (t + 1) kv insIdx (by omega) (by omega)

/-- Facts about the probe chain of an occupied slot, derived from the
structural invariant: the stored distance reaches the slot, and no earlier
probe step matches, is empty, or violates the Robin Hood ordering. -/
lemma walk_facts (s : HashMap K V) (k : K) {j : Nat} (hInv : TableInv s)
    (hj : j < s.buffer_size) (hocc : (slotL s.data j).status = Status.occupied)
    (hkey : (slotL s.data j).key = k) :
    (slotL s.data j).dist_to_ideal < s.buffer_size ∧
    probe s.buffer_size (s.get_hash k) (slotL s.data j).dist_to_ideal = j ∧
    scanMatch s.data s.buffer_size (s.get_hash k) k (slotL s.data j).dist_to_ideal ∧
    (∀ t < (slotL s.data j).dist_to_ideal,
      (¬ scanMatch s.data s.buffer_size (s.get_hash k) k t ∧
       ¬ scanEmpty s.data s.buffer_size (s.get_hash k) t) ∧
      ((slotL s.data (probe s.buffer_size (s.get_hash k) t)).status = Status.occupied →
        t ≤ (slotL s.data (probe s.buffer_size (s.get_hash k) t)).dist_to_ideal)) := by
  obtain ⟨hlen, hcap16, hcall, hcdead, huniq, hdist, hchain, hrich⟩ := hInv
  have hcap : 0 < s.buffer_size := by omega
  obtain ⟨hdlt, hdeq⟩ := hdist j hj hocc
  have hh1 : s.get_hash k = s.hasher (slotL s.data j).key % s.buffer_size := by
    rw [hkey]
    rfl
  have hpj : probe s.buffer_size (s.get_hash k) (slotL s.data j).dist_to_ideal = j := by
    unfold probe
    rw [hh1]
    exact hdeq
  refine ⟨hdlt, hpj, ?_, ?_⟩
  · unfold scanMatch
    rw [hpj]
    exact ⟨hocc, hkey⟩
  · intro t htd
    have hq : probe s.buffer_size (s.get_hash k) t < s.buffer_size := probe_lt hcap _ _
    constructor
    · constructor
      · rintro ⟨hqocc, hqkey⟩
        have heq : (slotL s.data (probe s.buffer_size (s.get_hash k) t)).key =
            (slotL s.data j).key := by
          rw [hqkey, hkey]
        have := huniq _ hq j hj hqocc hocc heq
        have hpp : probe s.buffer_size (s.get_hash k) t =
            probe s.buffer_size (s.get_hash k) (slotL s.data j).dist_to_ideal := by
          rw [hpj]
          exact this
        have := probe_inj (by omega) hdlt hpp
        omega
      · intro hqe
        have := hchain j hj hocc t htd
        rw [← hh1] at this
        exact this hqe
    · intro hqocc
      have := hrich j hj hocc t htd
      rw [← hh1] at this
      exact this hqocc

/-- `find` locates the occupied slot holding the key. -/
lemma find_found (s : HashMap K V) (k : K) {j : Nat} (hInv : TableInv s)
    (hj : j < s.buffer_size) (hocc : (slotL s.data j).status = Status.occupied)
    (hkey : (slotL s.data j).key = k) :
    s.findIdx k = j := by
  obtain ⟨hdlt, hpj, hmatch, hnostop⟩ := walk_facts s k hInv hj hocc hkey
  unfold HashMap.findIdx
  exact findAux_reach s.data s.buffer_size (s.get_hash k) k hdlt hpj hmatch
    (fun t ht => (hnostop t ht).1) _ 0 rfl (Nat.zero_le _)

/-- When no occupied slot holds the key, `find` returns the end index. -/
lemma find_not_found (s : HashMap K V) (k : K)
    (habs : ∀ j < s.buffer_size, ¬ ((slotL s.data j).status = Status.occupied ∧
      (slotL s.data j).key = k)) :
    s.findIdx k = s.buffer_size := by
  obtain ⟨t, ht0, htc, hpre, hcase⟩ :=
    findAux_char s.data s.buffer_size (s.get_hash k) k s.buffer_size 0 (by omega) (Nat.zero_le _)
  rcases hcase with ⟨_, h⟩ | ⟨htlt, hm, h⟩ | ⟨_, _, _, h⟩
  · exact h
  · exfalso
    have hcap : 0 < s.buffer_size := by omega
    have := habs (probe s.buffer_size (s.get_hash k) t) (probe_lt hcap _ _)
    exact this hm
  · exact h

/-- A `find` result other than the end index is a match. -/
lemma find_hit (s : HashMap K V) (k : K) (hne : s.findIdx k ≠ s.buffer_size) :
    s.findIdx k < s.buffer_size ∧
    (slotL s.data (s.findIdx k)).status = Status.occupied ∧
    (slotL s.data (s.findIdx k)).key = k := by
  obtain ⟨t, ht0, htc, hpre, hcase⟩ :=
    findAux_char s.data s.buffer_size (s.get_hash k) k s.buffer_size 0 (by omega) (Nat.zero_le _)
  rcases hcase with ⟨_, h⟩ | ⟨htlt, hm, h⟩ | ⟨_, _, _, h⟩
  · exact absurd h hne
  · have hcap : 0 < s.buffer_size := by omega
    unfold HashMap.findIdx at *
    rw [h]
    exact ⟨probe_lt hcap _ _, hm.1, hm.2⟩
  · exact absurd h hne

/-- Inserting a key already present is a strict no-op on the state and
returns the index of the slot holding it (the scan-loop part of `insert`). -/
lemma insertNR_match (s : HashMap K V) (k : K) (v2 : V) {j : Nat} (hInv : TableInv s)
    (hj : j < s.buffer_size) (hocc : (slotL s.data j).status = Status.occupied)
    (hkey : (slotL s.data j).key = k) :
    s.insertNR (k, v2) = (s, j) := by
  obtain ⟨hdlt, hpj, hmatch, hnostop⟩ := walk_facts s k hInv hj hocc hkey
  unfold HashMap.insertNR
  have hrun : insertAux s.data s.buffer_size (s.get_hash k) k (k, v2) 0 none 0 =
      (s.data, j, false) :=
    insertAux_reach s.data s.buffer_size (s.get_hash k) k hdlt hpj hmatch hnostop _ 0 (k, v2)
      none rfl (Nat.zero_le _)
  rw [hrun]
  simp

/-- Erasing an absent key leaves the state unchanged. -/
lemma erase_absent (s : HashMap K V) (k : K)
    (habs : ∀ j < s.buffer_size, ¬ ((slotL s.data j).status = Status.occupied ∧
      (slotL s.data j).key = k)) :
    s.erase k = s := by
  unfold HashMap.erase
  have hrun : eraseAux s.data s.buffer_size (s.get_hash k) k s.cnt_dead 0 =
      (s.data, s.cnt_dead) := by
    apply eraseAux_nomatch s.data s.buffer_size (s.get_hash k) k s.buffer_size s.cnt_dead 0
      (by omega)
    intro t ht1 ht2
    have hcap : 0 < s.buffer_size := by omega
    exact habs (probe s.buffer_size (s.get_hash k) t) (probe_lt hcap _ _)
  rw [hrun]

/-- Erasing a present key tombstones exactly its slot and bumps the dead
count. -/
lemma erase_found (s : HashMap K V) (k : K) {j : Nat} (hInv : TableInv s)
    (hj : j < s.buffer_size) (hocc : (slotL s.data j).status = Status.occupied)
    (hkey : (slotL s.data j).key = k) :
    s.erase k = { s with
      data := s.data.set j { slotL s.data j with status := Status.tombstone },
      cnt_dead := s.cnt_dead + 1 } := by
  obtain ⟨hdlt, hpj, hmatch, hnostop⟩ := walk_facts s k hInv hj hocc hkey
  have hlen : s.data.length = s.buffer_size := hInv.1
  have hjlen : j < s.data.length := by omega
  have hafter : ∀ t, t < s.buffer_size →
      ¬ scanMatch (s.data.set j { slotL s.data j with status := Status.tombstone })
        s.buffer_size (s.get_hash k) k t := by
    intro t ht
    rintro ⟨hqocc, hqkey⟩
    set q := probe s.buffer_size (s.get_hash k) t with hq
    by_cases hqj : j = q
    · rw [← hqj, slotL_set_self s.data hjlen] at hqocc
      simp at hqocc
    · rw [slotL_set_ne s.data hqj] at hqocc hqkey
      have hcap : 0 < s.buffer_size := by omega
      have huniq := hInv.2.2.2.2.1
      have := huniq q (probe_lt hcap _ _) j hj hqocc hocc (by rw [hqkey, hkey])
      exact hqj this.symm
  unfold HashMap.erase
  have hrun := eraseAux_found s.data s.buffer_size (s.get_hash k) k hdlt hpj hjlen hmatch
    (fun t ht => hnostop t ht |>.1) hafter _ s.cnt_dead 0 rfl (Nat.zero_le _)
  rw [hrun]

/-- Placement step: when the scan reaches an empty slot, filling it with
the carried pair yields the full insertion outcome. -/
lemma LoopInv.finish {hasher : K → Nat} {cap h1 : Nat} {key₀ : K} {v₀ : V}
    {data₀ data : List (Node K V)} {kv : K × V} {c i : Nat} {insIdx : Option Nat}
    (inv : LoopInv hasher cap h1 key₀ v₀ data₀ data kv c i insIdx)
    (hi : i < cap)
    (hemp : (slotL data (probe cap h1 i)).status = Status.empty) :
    InsOut hasher cap h1 key₀ v₀ data₀
      (data.set (probe cap h1 i)
        { key := kv.1, value := kv.2, status := Status.occupied, dist_to_ideal := c },
       insIdx.getD (probe cap h1 i), true) := by
  have hcap : 0 < cap := by omega
  have hplt : probe cap h1 i < cap := probe_lt hcap _ _
  have hplen : probe cap h1 i < data.length := by
    rw [inv.len, inv.lencap]
    exact hplt
  set p := probe cap h1 i with hp
  set newNode : Node K V :=
    { key := kv.1, value := kv.2, status := Status.occupied, dist_to_ideal := c } with hnew
  have hself : slotL (data.set p newNode) p = newNode := slotL_set_self data hplen newNode
  have hother : ∀ j, j ≠ p → slotL (data.set p newNode) j = slotL data j := by
    intro j hj
    exact slotL_set_ne data (fun h => hj h.symm) newNode
  refine { placed := rfl, len := ?_, statuses := ?_, pairs := ?_, ret_lt := ?_,
           ret_occ := ?_, ret_key := ?_, ret_val := ?_, uniq := ?_, distEq := ?_,
           chain := ?_, rich := ?_ }
  case refine_1 =>
    simp [List.length_set, inv.len]
  case refine_2 =>
    refine ⟨p, hplt, ?_, ?_, ?_⟩
    · rw [← inv.stat p]
      exact hemp
    · rw [hself]
    · intro j hj
      rw [hother j hj]
      exact inv.stat j
  case refine_3 =>
    have hos := occ_set data hplen newNode
    have e1 : occlist [slotL data p] = ([] : List (K × V)) := by
      rw [occlist_cons]
      simp [occlist, hemp]
    have e2 : occlist [newNode] = [(kv.1, kv.2)] := by
      rw [occlist_cons]
      simp [occlist, hnew]
    rw [e1, e2] at hos
    have e3 : (occlist (data.set p newNode) : Multiset (K × V)) =
        (occlist data : Multiset (K × V)) + {(kv.1, kv.2)} := by
      simpa using hos
    rw [e3]
    have : ((kv.1, kv.2) : K × V) = kv := rfl
    rw [this]
    exact inv.pairs
  case refine_4 =>
    cases hins : insIdx with
    | none =>
      simp only [Option.getD]
      exact hplt
    | some q =>
      simp only [Option.getD]
      exact (inv.insSome q hins).1
  case refine_5 =>
    cases hins : insIdx with
    | none =>
      simp only [Option.getD]
      rw [hself]
    | some q =>
      simp only [Option.getD]
      obtain ⟨hq, hqocc, hqkey, hqval⟩ := inv.insSome q hins
      have hqp : q ≠ p := by
        intro h
        rw [h] at hqocc
        rw [hemp] at hqocc
        simp at hqocc
      rw [hother q hqp]
      exact hqocc
  case refine_6 =>
    cases hins : insIdx with
    | none =>
      simp only [Option.getD]
      rw [hself]
      have := (inv.insNone hins).1
      simp only [hnew]
      rw [this]
    | some q =>
      simp only [Option.getD]
      obtain ⟨hq, hqocc, hqkey, hqval⟩ := inv.insSome q hins
      have hqp : q ≠ p := by
        intro h
        rw [h] at hqocc
        rw [hemp] at hqocc
        simp at hqocc
      rw [hother q hqp]
      exact hqkey
  case refine_7 =>
    cases hins : insIdx with
    | none =>
      simp only [Option.getD]
      rw [hself]
      have := (inv.insNone hins).1
      simp only [hnew]
      rw [this]
    | some q =>
      simp only [Option.getD]
      obtain ⟨hq, hqocc, hqkey, hqval⟩ := inv.insSome q hins
      have hqp : q ≠ p := by
        intro h
        rw [h] at hqocc
        rw [hemp] at hqocc
        simp at hqocc
      rw [hother q hqp]
      exact hqval
  case refine_8 =>
    intro a ha b hb hocca hoccb hkeyab
    by_cases hap : a = p <;> by_cases hbp : b = p
    · rw [hap, hbp]
    · exfalso
      rw [hap] at hocca hkeyab
      rw [hself] at hkeyab
      rw [hother b hbp] at hoccb hkeyab
      exact inv.fresh b hb hoccb hkeyab.symm
    · exfalso
      rw [hbp] at hoccb hkeyab
      rw [hself] at hkeyab
      rw [hother a hap] at hocca hkeyab
      exact inv.fresh a ha hocca hkeyab
    · rw [hother a hap] at hocca hkeyab
      rw [hother b hbp] at hoccb hkeyab
      exact inv.uniq a ha b hb hocca hoccb hkeyab
  case refine_9 =>
    intro j hj hocc
    by_cases hjp : j = p
    · subst hjp
      rw [hself]
      constructor
      · have := inv.cle
        simpa [hnew] using by omega
      · simp only [hnew]
        rw [inv.carried]
        exact hp.symm
    · rw [hother j hjp] at hocc ⊢
      exact inv.distEq j hj hocc
  case refine_10 =>
    show ChainInv hasher cap (data.set p newNode)
    intro j hj hocc t ht
    by_cases hjp : j = p
    · subst hjp
      rw [hself] at hocc ht ⊢
      simp only [hnew] at ht ⊢
      have hsh := probe_shift inv.carried (le_of_lt ht) inv.cle
      have hq : probe cap (hasher kv.1 % cap) t = probe cap h1 (i - c + t) := hsh
      rw [hq]
      have hlt : i - c + t < i := by
        have := inv.cle
        omega
      have := inv.scanned (i - c + t) hlt
      by_cases hqp : probe cap h1 (i - c + t) = p
      · rw [hqp, hself]
        simp [hnew]
      · rw [hother _ hqp]
        exact this
    · rw [hother j hjp] at hocc ht ⊢
      have hch := inv.chain j hj hocc t ht
      by_cases hqp : probe cap (hasher (slotL data j).key % cap) t = p
      · rw [hqp, hself]
        simp [hnew]
      · rw [hother _ hqp]
        exact hch
  case refine_11 =>
    show RichInv hasher cap (data.set p newNode)
    intro j hj hocc t ht hqocc
    by_cases hjp : j = p
    · subst hjp
      rw [hself] at hocc ht hqocc ⊢
      simp only [hnew] at ht hqocc ⊢
      have hsh := probe_shift inv.carried (le_of_lt ht) inv.cle
      have hq : probe cap (hasher kv.1 % cap) t = probe cap h1 (i - c + t) := hsh
      rw [hq] at hqocc ⊢
      have hlt : i - c + t < i := by
        have := inv.cle
        omega
      have hqp : probe cap h1 (i - c + t) ≠ p := by
        intro h
        rw [hp] at h
        have := probe_inj (by omega) hi h
        omega
      rw [hother _ hqp] at hqocc ⊢
      have := inv.dloop (i - c + t) hlt hqocc
      have hcle := inv.cle
      omega
    · rw [hother j hjp] at hocc ht hqocc ⊢
      have hch := inv.chain j hj hocc t ht
      have hqp : probe cap (hasher (slotL data j).key % cap) t ≠ p := by
        intro h
        rw [h] at hch
        exact hch hemp
      rw [hother _ hqp] at hqocc ⊢
      exact inv.rich j hj hocc t ht hqocc

/-- Displacement step: swapping the carried pair into a richer occupied
slot preserves the loop invariant with the displaced pair carried on. -/
lemma LoopInv.step_swap {hasher : K → Nat} {cap h1 : Nat} {key₀ : K} {v₀ : V}
    {data₀ data : List (Node K V)} {kv : K × V} {c i : Nat} {insIdx : Option Nat}
    (inv : LoopInv hasher cap h1 key₀ v₀ data₀ data kv c i insIdx)
    (hi : i < cap)
    (hocc : (slotL data (probe cap h1 i)).status = Status.occupied)
    (hlt : (slotL data (probe cap h1 i)).dist_to_ideal < c)
    (hnk : (slotL data (probe cap h1 i)).key ≠ key₀) :
    LoopInv hasher cap h1 key₀ v₀ data₀
      (data.set (probe cap h1 i)
        { key := kv.1, value := kv.2, status := Status.occupied, dist_to_ideal := c })
      ((slotL data (probe cap h1 i)).key, (slotL data (probe cap h1 i)).value)
      ((slotL data (probe cap h1 i)).dist_to_ideal + 1) (i + 1)
      (some (insIdx.getD (probe cap h1 i))) := by
  have hcap : 0 < cap := by omega
  have hplt : probe cap h1 i < cap := probe_lt hcap _ _
  have hplen : probe cap h1 i < data.length := by
    rw [inv.len, inv.lencap]
    exact hplt
  set p := probe cap h1 i with hp
  set np := slotL data p with hnp
  set newNode : Node K V :=
    { key := kv.1, value := kv.2, status := Status.occupied, dist_to_ideal := c } with hnew
  have hself : slotL (data.set p newNode) p = newNode := slotL_set_self data hplen newNode
  have hother : ∀ j, j ≠ p → slotL (data.set p newNode) j = slotL data j := by
    intro j hj
    exact slotL_set_ne data (fun h => hj h.symm) newNode
  have hstatset : ∀ q, (slotL (data.set p newNode) q).status = (slotL data q).status := by
    intro q
    by_cases hq : q = p
    · rw [hq, hself, ← hnp, hocc]
    · rw [hother q hq]
  have hdp := inv.distEq p hplt hocc
  refine { len := ?_, lencap := inv.lencap, stat := ?_, pairs := ?_, carried := ?_,
           cle := ?_, fresh := ?_, uniq := ?_, distEq := ?_, chain := ?_, rich := ?_,
           scanned := ?_, dloop := ?_, noMatch := ?_, insNone := ?_, insSome := ?_ }
  case refine_1 =>
    rw [List.length_set]
    exact inv.len
  case refine_2 =>
    intro j
    rw [hstatset j]
    exact inv.stat j
  case refine_3 =>
    have hos := occ_set data hplen newNode
    have e1 : occlist [slotL data p] = [(np.key, np.value)] := by
      rw [occlist_cons]
      simp [occlist, ← hnp, hocc]
    have e2 : occlist [newNode] = [(kv.1, kv.2)] := by
      rw [occlist_cons]
      simp [occlist, hnew]
    rw [e1, e2] at hos
    have e3 : (occlist (data.set p newNode) : Multiset (K × V)) + {(np.key, np.value)} =
        (occlist data : Multiset (K × V)) + {(kv.1, kv.2)} := by
      simpa using hos
    have : ((kv.1, kv.2) : K × V) = kv := rfl
    rw [this] at e3
    rw [e3]
    exact inv.pairs
  case refine_4 =>
    have h2 := hdp.2
    have e1 : (hasher np.key % cap + np.dist_to_ideal) % cap = (h1 + i) % cap := by
      rw [h2, hp]
      unfold probe
      rfl
    have := mod_add_congr (k := 1) e1
    have e2 : hasher np.key % cap + np.dist_to_ideal + 1 =
        hasher np.key % cap + (np.dist_to_ideal + 1) := by omega
    have e3 : h1 + i + 1 = h1 + (i + 1) := by omega
    rw [e2, e3] at this
    exact this
  case refine_5 =>
    have := inv.cle
    omega
  case refine_6 =>
    intro j hj hjocc
    by_cases hjp : j = p
    · rw [hjp, hself]
      have := inv.fresh p hplt hocc
      simp only [hnew]
      exact fun h => this h.symm
    · rw [hother j hjp] at hjocc ⊢
      intro hkey
      have := inv.uniq j hj p hplt hjocc hocc (by rw [hkey, hnp])
      exact hjp this
  case refine_7 =>
    intro a ha b hb hocca hoccb hkeyab
    by_cases hap : a = p <;> by_cases hbp : b = p
    · rw [hap, hbp]
    · exfalso
      rw [hap] at hocca hkeyab
      rw [hself] at hkeyab
      rw [hother b hbp] at hoccb hkeyab
      exact inv.fresh b hb hoccb hkeyab.symm
    · exfalso
      rw [hbp] at hoccb hkeyab
      rw [hself] at hkeyab
      rw [hother a hap] at hocca hkeyab
      exact inv.fresh a ha hocca hkeyab
    · rw [hother a hap] at hocca hkeyab
      rw [hother b hbp] at hoccb hkeyab
      exact inv.uniq a ha b hb hocca hoccb hkeyab
  case refine_8 =>
    intro j hj hjocc
    by_cases hjp : j = p
    · subst hjp
      rw [hself]
      refine ⟨?_, ?_⟩
      · have := inv.cle
        simp only [hnew]
        omega
      · simp only [hnew]
        rw [inv.carried]
        exact hp.symm
    · rw [hother j hjp] at hjocc ⊢
      exact inv.distEq j hj hjocc
  case refine_9 =>
    show ChainInv hasher cap (data.set p newNode)
    intro j hj hjocc t ht
    by_cases hjp : j = p
    · subst hjp
      rw [hself] at hjocc ht ⊢
      simp only [hnew] at ht ⊢
      have hsh := probe_shift inv.carried (le_of_lt ht) inv.cle
      have hq : probe cap (hasher kv.1 % cap) t = probe cap h1 (i - c + t) := hsh
      rw [hq, hstatset]
      have hlt2 : i - c + t < i := by
        have := inv.cle
        omega
      exact inv.scanned (i - c + t) hlt2
    · rw [hother j hjp] at hjocc ht ⊢
      rw [hstatset]
      exact inv.chain j hj hjocc t ht
  case refine_10 =>
    show RichInv hasher cap (data.set p newNode)
    intro j hj hjocc t ht hqocc
    by_cases hjp : j = p
    · subst hjp
      rw [hself] at hjocc ht hqocc ⊢
      simp only [hnew] at ht hqocc ⊢
      have hsh := probe_shift inv.carried (le_of_lt ht) inv.cle
      have hq : probe cap (hasher kv.1 % cap) t = probe cap h1 (i - c + t) := hsh
      rw [hq] at hqocc ⊢
      have hlt2 : i - c + t < i := by
        have := inv.cle
        omega
      have hqp : probe cap h1 (i - c + t) ≠ p := by
        intro h
        rw [hp] at h
        have := probe_inj (by omega) hi h
        omega
      rw [hother _ hqp] at hqocc ⊢
      have := inv.dloop (i - c + t) hlt2 hqocc
      have hcle := inv.cle
      omega
    · rw [hother j hjp] at hjocc ht hqocc ⊢
      by_cases hqp : probe cap (hasher (slotL data j).key % cap) t = p
      · rw [hqp] at hqocc ⊢
        rw [hself]
        have := inv.rich j hj hjocc t ht
        rw [hqp] at this
        have h2 := this (by rw [← hnp]; exact hocc)
        rw [← hnp] at h2
        simp only [hnew]
        omega
      · rw [hother _ hqp] at hqocc ⊢
        exact inv.rich j hj hjocc t ht hqocc
  case refine_11 =>
    intro t ht
    rw [hstatset]
    rcases Nat.lt_or_ge t i with h | h
    · exact inv.scanned t h
    · have : t = i := by omega
      rw [this, ← hp, ← hnp, hocc]
      simp
  case refine_12 =>
    intro t ht htocc
    rcases Nat.lt_or_ge t i with h | h
    · have hqp : probe cap h1 t ≠ p := by
        intro he
        rw [hp] at he
        have := probe_inj (by omega) hi he
        omega
      rw [hother _ hqp] at htocc ⊢
      have := inv.dloop t h htocc
      omega
    · have hti : t = i := by omega
      subst hti
      rw [← hp, hself]
      simp only [hnew]
      omega
  case refine_13 =>
    intro t ht1 ht2
    have hqp : probe cap h1 t ≠ p := by
      intro he
      rw [hp] at he
      have := probe_inj (by omega) hi he
      omega
    unfold scanMatch
    rw [hother _ hqp]
    exact inv.noMatch t (by omega) ht2
  case refine_14 =>
    intro h
    simp at h
  case refine_15 =>
    intro q hq
    have hqe : q = insIdx.getD p := by
      injection hq
      omega
    subst hqe
    cases hins : insIdx with
    | none =>
      simp only [Option.getD]
      refine ⟨hplt, ?_, ?_, ?_⟩
      · rw [hself]
      · rw [hself]
        have := (inv.insNone hins).1
        simp only [hnew]
        rw [this]
      · rw [hself]
        have := (inv.insNone hins).1
        simp only [hnew]
        rw [this]
    | some q' =>
      simp only [Option.getD]
      obtain ⟨hq', hq'occ, hq'key, hq'val⟩ := inv.insSome q' hins
      have hqp : q' ≠ p := by
        intro h
        rw [h] at hq'key
        rw [← hnp] at hq'key
        exact hnk hq'key
      rw [hother q' hqp]
      exact ⟨hq', hq'occ, hq'key, hq'val⟩

/-- Skip step: passing a tombstone, or an occupied slot at least as poor as
the carried pair, preserves the loop invariant with the distance bumped. -/
lemma LoopInv.step_skip {hasher : K → Nat} {cap h1 : Nat} {key₀ : K} {v₀ : V}
    {data₀ data : List (Node K V)} {kv : K × V} {c i : Nat} {insIdx : Option Nat}
    (inv : LoopInv hasher cap h1 key₀ v₀ data₀ data kv c i insIdx)
    (hi : i < cap)
    (hne : (slotL data (probe cap h1 i)).status ≠ Status.empty)
    (hnsw : ¬ ((slotL data (probe cap h1 i)).status = Status.occupied ∧
      (slotL data (probe cap h1 i)).dist_to_ideal < c)) :
    LoopInv hasher cap h1 key₀ v₀ data₀ data kv (c + 1) (i + 1) insIdx := by
  refine { len := inv.len, lencap := inv.lencap, stat := inv.stat, pairs := inv.pairs,
           carried := ?_, cle := by have := inv.cle; omega, fresh := inv.fresh,
           uniq := inv.uniq, distEq := inv.distEq, chain := inv.chain, rich := inv.rich,
           scanned := ?_, dloop := ?_, noMatch := ?_, insNone := ?_,
           insSome := inv.insSome }
  case refine_1 =>
    have := mod_add_congr (k := 1) inv.carried
    have e2 : hasher kv.1 % cap + c + 1 = hasher kv.1 % cap + (c + 1) := by omega
    have e3 : h1 + i + 1 = h1 + (i + 1) := by omega
    rw [e2, e3] at this
    exact this
  case refine_2 =>
    intro t ht
    rcases Nat.lt_or_ge t i with h | h
    · exact inv.scanned t h
    · have : t = i := by omega
      rw [this]
      exact hne
  case refine_3 =>
    intro t ht htocc
    rcases Nat.lt_or_ge t i with h | h
    · have := inv.dloop t h htocc
      omega
    · have : t = i := by omega
      subst this
      have : c ≤ (slotL data (probe cap h1 t)).dist_to_ideal := by
        by_contra hc
        exact hnsw ⟨htocc, by omega⟩
      omega
  case refine_4 =>
    intro t ht1 ht2
    exact inv.noMatch t (by omega) ht2
  case refine_5 =>
    intro h
    obtain ⟨h1', h2'⟩ := inv.insNone h
    exact ⟨h1', by omega⟩

/-- Main induction for inserting an absent key: from any loop state the
scan ends by filling an empty slot, yielding the insertion outcome. -/
lemma insertAux_absent_loop (hasher : K → Nat) (cap h1 : Nat) (key₀ : K) (v₀ : V)
    (data₀ : List (Node K V))
    (hemp : ∃ e < cap, (slotL data₀ e).status = Status.empty) :
    ∀ n i data kv c insIdx, cap - i = n → i ≤ cap →
      LoopInv hasher cap h1 key₀ v₀ data₀ data kv c i insIdx →
      InsOut hasher cap h1 key₀ v₀ data₀ (insertAux data cap h1 key₀ kv c insIdx i) := by
  intro n
  induction n with
  | zero =>
    intro i data kv c insIdx hn hi inv
    exfalso
    obtain ⟨e, he, hee⟩ := hemp
    obtain ⟨t, ht, hpt⟩ := probe_surj h1 he
    have := inv.scanned t (by omega)
    rw [hpt] at this
    rw [inv.stat e] at this
    exact this hee
  | succ n ih =>
    intro i data kv c insIdx hn hi inv
    have hilt : i < cap := by omega
    have hcap : 0 < cap := by omega
    have hpi : (h1 + i) % cap = probe cap h1 i := rfl
    have hnm : ¬ ((slotL data ((h1 + i) % cap)).status = Status.occupied ∧
        (slotL data ((h1 + i) % cap)).key = key₀) := by
      rw [hpi]
      exact inv.noMatch i (le_refl _) hilt
    rw [insertAux_eq]
    simp only [if_pos hilt, if_neg hnm]
    by_cases hemp' : (slotL data ((h1 + i) % cap)).status = Status.empty
    · simp only [if_pos hemp']
      rw [hpi] at hemp' ⊢
      exact inv.finish hilt hemp'
    · simp only [if_neg hemp']
      by_cases hsw : (slotL data ((h1 + i) % cap)).status = Status.occupied ∧
          (slotL data ((h1 + i) % cap)).dist_to_ideal < c
      · simp only [if_pos hsw]
        rw [hpi] at hsw hnm ⊢
        have hnk : (slotL data (probe cap h1 i)).key ≠ key₀ := by
          intro h
          exact hnm ⟨hsw.1, h⟩
        exact ih (i + 1) _ _ _ _ (by omega) (by omega)
          (inv.step_swap hilt hsw.1 hsw.2 hnk)
      · simp only [if_neg hsw]
        rw [hpi] at hemp' hsw
        exact ih (i + 1) _ _ _ _ (by omega) (by omega)
          (inv.step_skip hilt hemp' hsw)

/-- Count bookkeeping: Prop-valued variant of `countP_set`. -/
lemma countP_set' (l : List (Node K V)) {j : Nat} (h : j < l.length)
    (P : Node K V → Prop) [DecidablePred P] (a : Node K V) :
    (l.set j a).countP (fun nd => decide (P nd)) + (if P (slotL l j) then 1 else 0) =
      l.countP (fun nd => decide (P nd)) + (if P a then 1 else 0) := by
  have := countP_set l h (fun nd => decide (P nd)) a
  simpa using this

/-- Count bookkeeping when one formerly empty slot becomes occupied and all
other statuses are unchanged. -/
lemma counts_after {cap : Nat} {data₀ out : List (Node K V)}
    (hlen0 : data₀.length = cap) (hlen : out.length = data₀.length)
    {p0 : Nat} (hp0 : p0 < cap) (he : (slotL data₀ p0).status = Status.empty)
    (ho : (slotL out p0).status = Status.occupied)
    (hoth : ∀ j, j ≠ p0 → (slotL out j).status = (slotL data₀ j).status) :
    countNE out = countNE data₀ + 1 ∧ countTomb out = countTomb data₀ ∧
    countOcc out = countOcc data₀ + 1 := by
  have hp0len : p0 < data₀.length := by omega
  have hcongr := counts_congr out (data₀.set p0 (slotL out p0))
    (by simp; omega) ?_
  · have hNE := countP_set' data₀ hp0len (fun nd => nd.status ≠ Status.empty) (slotL out p0)
    have hT := countP_set' data₀ hp0len (fun nd => nd.status = Status.tombstone) (slotL out p0)
    have hO := countP_set' data₀ hp0len (fun nd => nd.status = Status.occupied) (slotL out p0)
    rw [if_neg (fun hh => hh he), if_pos (by rw [ho]; simp)] at hNE
    rw [if_neg (by rw [he]; simp), if_neg (by rw [ho]; simp)] at hT
    rw [if_neg (by rw [he]; simp), if_pos ho] at hO
    unfold countNE countTomb countOcc at *
    omega
  · intro j hj
    by_cases hjp : j = p0
    · subst hjp
      rw [slotL_set_self data₀ hp0len]
    · rw [slotL_set_ne data₀ (fun h => hjp h.symm)]
      exact hoth j hjp

/-- Inserting an absent key (scan-loop part): full outcome description. -/
lemma insertNR_absent (s : HashMap K V) (k : K) (v : V) (hInv : TableInv s)
    (habs : ∀ j < s.buffer_size, (slotL s.data j).status = Status.occupied →
      (slotL s.data j).key ≠ k)
    (hlt : s.cnt_all < s.buffer_size) :
    InsOut s.hasher s.buffer_size (s.get_hash k) k v s.data
      (insertAux s.data s.buffer_size (s.get_hash k) k (k, v) 0 none 0) ∧
    s.insertNR (k, v) =
      (HashMap.mk s.hasher (insertAux s.data s.buffer_size (s.get_hash k) k (k, v) 0 none 0).1
        (s.cnt_all + 1) s.cnt_dead s.buffer_size,
       (insertAux s.data s.buffer_size (s.get_hash k) k (k, v) 0 none 0).2.1) := by
  obtain ⟨hlen, hcap16, hcall, hcdead, huniq, hdist, hchain, hrich⟩ := hInv
  have hemp : ∃ e < s.buffer_size, (slotL s.data e).status = Status.empty := by
    have hne : countNE s.data < s.data.length := by omega
    obtain ⟨j, hj, hje⟩ := exists_empty_of_countNE_lt hne
    exact ⟨j, by omega, hje⟩
  have inv0 : LoopInv s.hasher s.buffer_size (s.get_hash k) k v s.data s.data (k, v) 0 0 none := by
    refine { len := rfl, lencap := hlen, stat := fun j => rfl, pairs := rfl,
             carried := rfl, cle := le_refl _, fresh := habs, uniq := huniq,
             distEq := hdist, chain := hchain, rich := hrich,
             scanned := ?_, dloop := ?_, noMatch := ?_,
             insNone := fun _ => ⟨rfl, rfl⟩, insSome := ?_ }
    · intro t ht
      omega
    · intro t ht
      omega
    · intro t ht1 ht2
      rintro ⟨hocc, hkey⟩
      have hcap : 0 < s.buffer_size := by omega
      exact habs _ (probe_lt hcap _ _) hocc hkey
    · intro p hp
      simp at hp
  have hout := insertAux_absent_loop s.hasher s.buffer_size (s.get_hash k) k v s.data hemp
    s.buffer_size 0 s.data (k, v) 0 none (by omega) (Nat.zero_le _) inv0
  refine ⟨hout, ?_⟩
  unfold HashMap.insertNR
  simp [hout.placed]

/-- The new table state after a successful absent-key insertion satisfies
the structural invariant again. -/
lemma insertNR_absent_inv (s : HashMap K V) (k : K) (v : V) (hInv : TableInv s)
    (habs : ∀ j < s.buffer_size, (slotL s.data j).status = Status.occupied →
      (slotL s.data j).key ≠ k)
    (hlt : s.cnt_all < s.buffer_size) :
    TableInv (s.insertNR (k, v)).1 ∧
    (s.insertNR (k, v)).1.cnt_all = s.cnt_all + 1 ∧
    (s.insertNR (k, v)).1.cnt_dead = s.cnt_dead ∧
    (s.insertNR (k, v)).1.buffer_size = s.buffer_size ∧
    (s.insertNR (k, v)).1.hasher = s.hasher ∧
    (occlist (s.insertNR (k, v)).1.data : Multiset (K × V)) =
      (occlist s.data : Multiset (K × V)) + {(k, v)} ∧
    (s.insertNR (k, v)).2 < s.buffer_size ∧
    (slotL (s.insertNR (k, v)).1.data (s.insertNR (k, v)).2).status = Status.occupied ∧
    (slotL (s.insertNR (k, v)).1.data (s.insertNR (k, v)).2).key = k ∧
    (slotL (s.insertNR (k, v)).1.data (s.insertNR (k, v)).2).value = v ∧
    (∀ j, (slotL (s.insertNR (k, v)).1.data j).status = Status.tombstone →
      (slotL s.data j).status = Status.tombstone) := by
  obtain ⟨hout, heq⟩ := insertNR_absent s k v hInv habs hlt
  obtain ⟨hlen, hcap16, hcall, hcdead, huniq, hdist, hchain, hrich⟩ := hInv
  obtain ⟨p0, hp0, hp0e, hp0o, hp0oth⟩ := hout.statuses
  have hcounts := counts_after hlen hout.len hp0 hp0e hp0o hp0oth
  rw [heq]
  refine ⟨⟨?_, hcap16, ?_, ?_, hout.uniq, hout.distEq, hout.chain, hout.rich⟩,
    rfl, rfl, rfl, rfl, hout.pairs, hout.ret_lt, hout.ret_occ, hout.ret_key,
    hout.ret_val, ?_⟩
  · show (insertAux s.data s.buffer_size (s.get_hash k) k (k, v) 0 none 0).1.length =
      s.buffer_size
    rw [hout.len]
    exact hlen
  · show s.cnt_all + 1 =
      countNE (insertAux s.data s.buffer_size (s.get_hash k) k (k, v) 0 none 0).1
    rw [hcounts.1, hcall]
  · show s.cnt_dead =
      countTomb (insertAux s.data s.buffer_size (s.get_hash k) k (k, v) 0 none 0).1
    rw [hcounts.2.1, hcdead]
  · intro j hj
    by_cases hjp : j = p0
    · subst hjp
      rw [hp0o] at hj
      simp at hj
    · rw [hp0oth j hjp] at hj
      exact hj

lemma countNE_fresh (n : Nat) : countNE (freshData n : List (Node K V)) = 0 := by
  unfold countNE freshData
  induction n with
  | zero => rfl
  | succ m ih =>
    rw [List.replicate_succ, List.countP_cons]
    simp [Node.dflt, ih]

lemma countTomb_fresh (n : Nat) : countTomb (freshData n : List (Node K V)) = 0 := by
  unfold countTomb freshData
  induction n with
  | zero => rfl
  | succ m ih =>
    rw [List.replicate_succ, List.countP_cons]
    simp [Node.dflt, ih]

lemma occlist_fresh (n : Nat) : occlist (freshData n : List (Node K V)) = [] := by
  unfold occlist freshData
  induction n with
  | zero => rfl
  | succ m ih =>
    rw [List.replicate_succ, List.filter_cons]
    simp only [Node.dflt]
    simpa using ih

/-- The fresh doubled table installed by `resize` satisfies the structural
invariant (every slot empty). -/
lemma TableInv_fresh (hasher : K → Nat) (n : Nat) (hn : 16 ≤ n) :
    TableInv (HashMap.mk (V := V) hasher (freshData n) 0 0 n) := by
  refine ⟨freshData_length n, hn, ?_, ?_, ?_, ?_, ?_, ?_⟩
  · rw [countNE_fresh]
  · rw [countTomb_fresh]
  · intro i hi j hj hocc
    rw [show (HashMap.mk (V := V) hasher (freshData n) 0 0 n).data = freshData n from rfl,
      slotL_fresh] at hocc
    simp [Node.dflt] at hocc
  · intro j hj hocc
    rw [show (HashMap.mk (V := V) hasher (freshData n) 0 0 n).data = freshData n from rfl,
      slotL_fresh] at hocc
    simp [Node.dflt] at hocc
  · intro j hj hocc
    rw [show (HashMap.mk (V := V) hasher (freshData n) 0 0 n).data = freshData n from rfl,
      slotL_fresh] at hocc
    simp [Node.dflt] at hocc
  · intro j hj hocc
    rw [show (HashMap.mk (V := V) hasher (freshData n) 0 0 n).data = freshData n from rfl,
      slotL_fresh] at hocc
    simp [Node.dflt] at hocc

lemma slotL_cons_zero (a : Node K V) (t : List (Node K V)) : slotL (a :: t) 0 = a := rfl

lemma slotL_cons_succ (a : Node K V) (t : List (Node K V)) (j : Nat) :
    slotL (a :: t) (j + 1) = slotL t j := rfl

/-- Positional key uniqueness gives a duplicate-free occupied key list. -/
lemma nodup_occKeys (data : List (Node K V))
    (huniq : ∀ i < data.length, ∀ j < data.length,
      (slotL data i).status = Status.occupied → (slotL data j).status = Status.occupied →
      (slotL data i).key = (slotL data j).key → i = j) :
    ((occlist data).map Prod.fst).Nodup := by
  induction data with
  | nil => simp [occlist]
  | cons a t ih =>
    have huniq_t : ∀ i < t.length, ∀ j < t.length,
        (slotL t i).status = Status.occupied → (slotL t j).status = Status.occupied →
        (slotL t i).key = (slotL t j).key → i = j := by
      intro i hi j hj hoi hoj hk
      have := huniq (i + 1) (by simp; omega) (j + 1) (by simp; omega)
        (by rwa [slotL_cons_succ]) (by rwa [slotL_cons_succ])
        (by rwa [slotL_cons_succ, slotL_cons_succ])
      omega
    rw [occlist_cons]
    by_cases ha : a.status = Status.occupied
    · simp only [if_pos ha, List.singleton_append, List.map_cons, List.nodup_cons]
      refine ⟨?_, ih huniq_t⟩
      intro hmem
      obtain ⟨pr, hpr, hfst⟩ := List.mem_map.mp hmem
      obtain ⟨j, hj, hjocc, hjkey, hjval⟩ := mem_occlist.mp hpr
      have := huniq 0 (by simp) (j + 1) (by simp; omega)
        (by rwa [slotL_cons_zero]) (by rwa [slotL_cons_succ])
        (by rw [slotL_cons_zero, slotL_cons_succ, hjkey, hfst])
      omega
    · simp only [if_neg ha, List.nil_append]
      exact ih huniq_t

/-- Replaying occupied entries with distinct keys into a table with enough
room inserts them all: the induction behind `resize` correctness. -/
lemma rehash_fold (B : Nat) :
    ∀ (l : List (Node K V)) (acc : HashMap K V),
      TableInv acc → acc.buffer_size = B →
      2 * (acc.cnt_all + countOcc l) ≤ B →
      acc.cnt_dead = 0 →
      (∀ j, (slotL acc.data j).status ≠ Status.tombstone) →
      Multiset.Nodup (Multiset.map Prod.fst (occlist acc.data : Multiset (K × V)) +
        Multiset.map Prod.fst (occlist l : Multiset (K × V))) →
      TableInv (l.foldl (fun a nd => if nd.status = Status.occupied
          then (a.insertNR (nd.key, nd.value)).1 else a) acc) ∧
      (l.foldl (fun a nd => if nd.status = Status.occupied
          then (a.insertNR (nd.key, nd.value)).1 else a) acc).buffer_size = B ∧
      (l.foldl (fun a nd => if nd.status = Status.occupied
          then (a.insertNR (nd.key, nd.value)).1 else a) acc).hasher = acc.hasher ∧
      (l.foldl (fun a nd => if nd.status = Status.occupied
          then (a.insertNR (nd.key, nd.value)).1 else a) acc).cnt_dead = 0 ∧
      (∀ j, (slotL (l.foldl (fun a nd => if nd.status = Status.occupied
          then (a.insertNR (nd.key, nd.value)).1 else a) acc).data j).status ≠
        Status.tombstone) ∧
      (occlist (l.foldl (fun a nd => if nd.status = Status.occupied
          then (a.insertNR (nd.key, nd.value)).1 else a) acc).data : Multiset (K × V)) =
        (occlist acc.data : Multiset (K × V)) + (occlist l : Multiset (K × V)) ∧
      (l.foldl (fun a nd => if nd.status = Status.occupied
          then (a.insertNR (nd.key, nd.value)).1 else a) acc).cnt_all =
        acc.cnt_all + countOcc l := by
  intro l
  induction l with
  | nil =>
    intro acc hInv hB hload hdead htomb hnod
    refine ⟨hInv, hB, rfl, hdead, htomb, ?_, ?_⟩
    · simp [occlist]
    · simp [countOcc]
  | cons nd rest ih =>
    intro acc hInv hB hload hdead htomb hnod
    by_cases hocc : nd.status = Status.occupied
    · have hce : countOcc (nd :: rest) = countOcc rest + 1 := by
        unfold countOcc
        rw [List.countP_cons]
        simp [hocc]
      have hoc : occlist (nd :: rest) = (nd.key, nd.value) :: occlist rest := by
        rw [occlist_cons]
        simp [hocc]
      have hocm : (occlist (nd :: rest) : Multiset (K × V)) =
          (nd.key, nd.value) ::ₘ (occlist rest : Multiset (K × V)) := by
        rw [hoc]
        rfl
      -- the head key is fresh in the accumulated table
      have hfresh : ∀ j < acc.buffer_size,
          (slotL acc.data j).status = Status.occupied → (slotL acc.data j).key ≠ nd.key := by
        intro j hj hjocc hjkey
        rw [hocm] at hnod
        have hmem : nd.key ∈ Multiset.map Prod.fst (occlist acc.data : Multiset (K × V)) := by
          apply Multiset.mem_map.mpr
          refine ⟨(( slotL acc.data j).key, (slotL acc.data j).value), ?_, by rw [hjkey]⟩
          have : ((slotL acc.data j).key, (slotL acc.data j).value) ∈ occlist acc.data := by
            apply mem_occlist.mpr
            refine ⟨j, ?_, hjocc, rfl, rfl⟩
            rw [hInv.1]
            exact hj
          exact this
        rw [Multiset.map_cons] at hnod
        obtain ⟨hn1, hn2, hdisj⟩ := Multiset.nodup_add.mp hnod
        exact (Multiset.disjoint_left.mp hdisj hmem) (Multiset.mem_cons_self _ _)
      have hlt : acc.cnt_all < acc.buffer_size := by
        have h16 := hInv.2.1
        omega
      obtain ⟨hInv', hcnt', hdead', hbuf', hhash', hpairs', hret1, hret2, hret3, hret4, htomb'⟩ :=
        insertNR_absent_inv acc nd.key nd.value hInv hfresh hlt
      have hstep : (nd :: rest).foldl (fun a nd => if nd.status = Status.occupied
          then (a.insertNR (nd.key, nd.value)).1 else a) acc =
          rest.foldl (fun a nd => if nd.status = Status.occupied
          then (a.insertNR (nd.key, nd.value)).1 else a) ((acc.insertNR (nd.key, nd.value)).1) := by
        simp [hocc]
      rw [hstep, hce]
      have ihres := ih ((acc.insertNR (nd.key, nd.value)).1) hInv' (by rw [hbuf', hB])
        (by rw [hcnt']; omega) (by rw [hdead', hdead]) ?_ ?_
      · obtain ⟨i1, i2, i3, i4, i5, i6, i7⟩ := ihres
        refine ⟨i1, i2, by rw [i3, hhash'], i4, i5, ?_, by rw [i7, hcnt']; omega⟩
        rw [i6, hpairs', hocm]
        have : ((nd.key, nd.value) ::ₘ (occlist rest : Multiset (K × V))) =
            {(nd.key, nd.value)} + (occlist rest : Multiset (K × V)) := by
          rw [Multiset.singleton_add]
        rw [this]
        abel
      · intro j hj
        exact htomb j (htomb' j hj)
      · rw [hpairs']
        rw [hocm] at hnod
        have e1 : Multiset.map Prod.fst ((occlist acc.data : Multiset (K × V)) +
            {(nd.key, nd.value)}) = Multiset.map Prod.fst (occlist acc.data : Multiset (K × V)) +
            {nd.key} := by
          rw [Multiset.map_add]
          rfl
        rw [e1]
        rw [Multiset.map_cons] at hnod
        have : Multiset.map Prod.fst (occlist acc.data : Multiset (K × V)) + {nd.key} +
            Multiset.map Prod.fst (occlist rest : Multiset (K × V)) =
            Multiset.map Prod.fst (occlist acc.data : Multiset (K × V)) +
            (nd.key ::ₘ Multiset.map Prod.fst (occlist rest : Multiset (K × V))) := by
          rw [← Multiset.singleton_add]
          abel
        rw [this]
        exact hnod
    · have hce : countOcc (nd :: rest) = countOcc rest := by
        unfold countOcc
        rw [List.countP_cons]
        simp [hocc]
      have hoc : occlist (nd :: rest) = occlist rest := by
        rw [occlist_cons]
        simp [hocc]
      have hstep : (nd :: rest).foldl (fun a nd => if nd.status = Status.occupied
          then (a.insertNR (nd.key, nd.value)).1 else a) acc =
          rest.foldl (fun a nd => if nd.status = Status.occupied
          then (a.insertNR (nd.key, nd.value)).1 else a) acc := by
        simp [hocc]
      rw [hstep, hce]
      have hocm2 : (occlist (nd :: rest) : Multiset (K × V)) =
          (occlist rest : Multiset (K × V)) := by
        rw [hoc]
      rw [hocm2]
      exact ih acc hInv hB (by omega) hdead htomb (by rw [hocm2] at hnod; exact hnod)

lemma insertNR_fields (s : HashMap K V) (kv : K × V) :
    (s.insertNR kv).1.buffer_size = s.buffer_size ∧
    (s.insertNR kv).1.cnt_dead = s.cnt_dead ∧
    (s.insertNR kv).1.hasher = s.hasher ∧
    (s.insertNR kv).1.cnt_all ≤ s.cnt_all + 1 := by
  unfold HashMap.insertNR
  refine ⟨rfl, rfl, rfl, ?_⟩
  simp only
  split <;> omega

lemma insertFuel_succ (f : Nat) (s : HashMap K V) (kv : K × V) :
    insertFuel (f + 1) s kv =
      (if s.buffer_size < 2 * s.cnt_all then
        s.data.foldl
          (fun acc nd =>
            if nd.status = Status.occupied then (insertFuel f acc (nd.key, nd.value)).1
            else acc)
          { hasher := s.hasher, data := freshData (2 * s.buffer_size),
            cnt_all := 0, cnt_dead := 0, buffer_size := 2 * s.buffer_size }
      else s).insertNR kv := by
  rw [insertFuel]

/-- During a rehash the growth test can never fire again: one fuel level
suffices below the outer one. -/
lemma fold_fuel_eq (B : Nat) :
    ∀ (l : List (Node K V)) (acc : HashMap K V),
      acc.buffer_size = B → 2 * (acc.cnt_all + countOcc l) ≤ B →
      l.foldl (fun a nd => if nd.status = Status.occupied
        then (insertFuel 1 a (nd.key, nd.value)).1 else a) acc =
      l.foldl (fun a nd => if nd.status = Status.occupied
        then (a.insertNR (nd.key, nd.value)).1 else a) acc := by
  intro l
  induction l with
  | nil =>
    intro acc hB hload
    rfl
  | cons nd rest ih =>
    intro acc hB hload
    by_cases hocc : nd.status = Status.occupied
    · have hce : countOcc (nd :: rest) = countOcc rest + 1 := by
        unfold countOcc
        rw [List.countP_cons]
        simp [hocc]
      rw [hce] at hload
      have hnt : ¬ (acc.buffer_size < 2 * acc.cnt_all) := by omega
      have hstep : insertFuel 1 acc (nd.key, nd.value) = acc.insertNR (nd.key, nd.value) := by
        rw [insertFuel_succ 0 acc (nd.key, nd.value), if_neg hnt]
      have hf := insertNR_fields acc (nd.key, nd.value)
      have h1 : (nd :: rest).foldl (fun a nd => if nd.status = Status.occupied
          then (insertFuel 1 a (nd.key, nd.value)).1 else a) acc =
          rest.foldl (fun a nd => if nd.status = Status.occupied
          then (insertFuel 1 a (nd.key, nd.value)).1 else a)
          ((insertFuel 1 acc (nd.key, nd.value)).1) := by
        simp [hocc]
      have h2 : (nd :: rest).foldl (fun a nd => if nd.status = Status.occupied
          then (a.insertNR (nd.key, nd.value)).1 else a) acc =
          rest.foldl (fun a nd => if nd.status = Status.occupied
          then (a.insertNR (nd.key, nd.value)).1 else a)
          ((acc.insertNR (nd.key, nd.value)).1) := by
        simp [hocc]
      rw [h1, h2, hstep]
      exact ih ((acc.insertNR (nd.key, nd.value)).1) (by rw [hf.1, hB]) (by
        have := hf.2.2.2
        omega)
    · have hce : countOcc (nd :: rest) = countOcc rest := by
        unfold countOcc
        rw [List.countP_cons]
        simp [hocc]
      rw [hce] at hload
      have h1 : (nd :: rest).foldl (fun a nd => if nd.status = Status.occupied
          then (insertFuel 1 a (nd.key, nd.value)).1 else a) acc =
          rest.foldl (fun a nd => if nd.status = Status.occupied
          then (insertFuel 1 a (nd.key, nd.value)).1 else a) acc := by
        simp [hocc]
      have h2 : (nd :: rest).foldl (fun a nd => if nd.status = Status.occupied
          then (a.insertNR (nd.key, nd.value)).1 else a) acc =
          rest.foldl (fun a nd => if nd.status = Status.occupied
          then (a.insertNR (nd.key, nd.value)).1 else a) acc := by
        simp [hocc]
      rw [h1, h2]
      exact ih acc hB hload

/-- The fuelled `insert` agrees with the resize-then-scan decomposition on
every state whose slot array fits its capacity. -/
lemma insert_eq_NR (s : HashMap K V) (kv : K × V) (hlen : s.data.length ≤ s.buffer_size) :
    s.insert kv = s.resizeNR.insertNR kv := by
  unfold HashMap.insert HashMap.resizeNR
  rw [insertFuel_succ 1 s kv]
  by_cases ht : s.buffer_size < 2 * s.cnt_all
  · simp only [if_pos ht]
    have hco : countOcc s.data ≤ s.data.length := List.countP_le_length _
    rw [fold_fuel_eq (2 * s.buffer_size) s.data _ rfl (by
      show 2 * (0 + countOcc s.data) ≤ 2 * s.buffer_size
      omega)]
  · simp only [if_neg ht]

/-- Full description of `resize` on a well-formed state. -/
lemma resizeNR_spec (s : HashMap K V) (hWF : WF s) :
    TableInv s.resizeNR ∧
    2 * s.resizeNR.cnt_all ≤ s.resizeNR.buffer_size ∧
    s.resizeNR.hasher = s.hasher ∧
    (occlist s.resizeNR.data : Multiset (K × V)) = (occlist s.data : Multiset (K × V)) ∧
    s.resizeNR.cnt_all - s.resizeNR.cnt_dead = s.cnt_all - s.cnt_dead ∧
    (2 * s.cnt_all ≤ s.buffer_size → s.resizeNR = s) ∧
    (s.buffer_size < 2 * s.cnt_all →
      s.resizeNR.buffer_size = 2 * s.buffer_size ∧ s.resizeNR.cnt_dead = 0 ∧
      s.resizeNR.cnt_all = countOcc s.data ∧
      (∀ j, (slotL s.resizeNR.data j).status ≠ Status.tombstone)) := by
  obtain ⟨hInv, hload⟩ := hWF
  obtain ⟨hlen, hcap16, hcall, hcdead, huniq, hdist, hchain, hrich⟩ := hInv
  by_cases ht : s.buffer_size < 2 * s.cnt_all
  · have hres : s.resizeNR = s.data.foldl
        (fun acc nd => if nd.status = Status.occupied
          then (acc.insertNR (nd.key, nd.value)).1 else acc)
        { hasher := s.hasher, data := freshData (2 * s.buffer_size),
          cnt_all := 0, cnt_dead := 0, buffer_size := 2 * s.buffer_size } := by
      unfold HashMap.resizeNR
      rw [if_pos ht]
    have hbase : TableInv (HashMap.mk (V := V) s.hasher (freshData (2 * s.buffer_size)) 0 0
        (2 * s.buffer_size)) := TableInv_fresh s.hasher (2 * s.buffer_size) (by omega)
    have hco : countOcc s.data ≤ s.data.length := List.countP_le_length _
    have hnod : Multiset.Nodup
        (Multiset.map Prod.fst (occlist (HashMap.mk (V := V) s.hasher
          (freshData (2 * s.buffer_size)) 0 0 (2 * s.buffer_size)).data : Multiset (K × V)) +
         Multiset.map Prod.fst (occlist s.data : Multiset (K × V))) := by
      have e0 : occlist (HashMap.mk (V := V) s.hasher (freshData (2 * s.buffer_size)) 0 0
          (2 * s.buffer_size)).data = ([] : List (K × V)) := occlist_fresh _
      rw [e0]
      simp only [Multiset.coe_nil, Multiset.map_zero, zero_add]
      have hnk := nodup_occKeys s.data (by
        intro i hi j hj ho1 ho2 hk
        exact huniq i (by omega) j (by omega) ho1 ho2 hk)
      rw [show (Multiset.map Prod.fst (occlist s.data : Multiset (K × V))) =
        (((occlist s.data).map Prod.fst : List K) : Multiset K) from rfl]
      exact hnk
    have hfold := rehash_fold (2 * s.buffer_size) s.data
      (HashMap.mk (V := V) s.hasher (freshData (2 * s.buffer_size)) 0 0 (2 * s.buffer_size))
      hbase rfl (by simp; omega) rfl
      (by
        intro j
        show (slotL (freshData (2 * s.buffer_size)) j).status ≠ Status.tombstone
        rw [slotL_fresh]
        simp [Node.dflt])
      hnod
    obtain ⟨f1, f2, f3, f4, f5, f6, f7⟩ := hfold
    rw [hres]
    have e0 : occlist (HashMap.mk (V := V) s.hasher (freshData (2 * s.buffer_size)) 0 0
        (2 * s.buffer_size)).data = ([] : List (K × V)) := occlist_fresh _
    rw [e0] at f6
    simp only [Multiset.coe_nil, zero_add] at f6
    have hsz : s.cnt_all - s.cnt_dead = countOcc s.data := by
      have := countNE_eq s.data
      omega
    refine ⟨f1, ?_, f3, f6, ?_, ?_, ?_⟩
    · rw [f7, f2]
      simp only
      omega
    · rw [f7, f4]
      simp only
      omega
    · intro hle
      omega
    · intro _
      exact ⟨f2, f4, by rw [f7]; simp, f5⟩
  · have hres : s.resizeNR = s := by
      unfold HashMap.resizeNR
      rw [if_neg ht]
    rw [hres]
    refine ⟨⟨hlen, hcap16, hcall, hcdead, huniq, hdist, hchain, hrich⟩, by omega, rfl, rfl,
      rfl, fun _ => rfl, ?_⟩
    intro hgt
    omega

/-- Public `insert` on a key already present: nothing changes except for a
possible growth event, and the returned slot holds the original value. -/
lemma insert_present (s : HashMap K V) (kv : K × V) (hWF : WF s) {j : Nat}
    (hj : j < s.buffer_size) (hocc : (slotL s.data j).status = Status.occupied)
    (hkey : (slotL s.data j).key = kv.1) :
    WF (s.insert kv).1 ∧
    (occlist (s.insert kv).1.data : Multiset (K × V)) = (occlist s.data : Multiset (K × V)) ∧
    (s.insert kv).1.size = s.size ∧
    (s.insert kv).1.hasher = s.hasher ∧
    (s.insert kv).2 < (s.insert kv).1.buffer_size ∧
    (slotL (s.insert kv).1.data (s.insert kv).2).status = Status.occupied ∧
    (slotL (s.insert kv).1.data (s.insert kv).2).key = kv.1 ∧
    (slotL (s.insert kv).1.data (s.insert kv).2).value = (slotL s.data j).value ∧
    (2 * s.cnt_all ≤ s.buffer_size → s.insert kv = (s, j)) := by
  have hlen : s.data.length = s.buffer_size := hWF.1.1
  have heq := insert_eq_NR s kv (le_of_eq hlen)
  obtain ⟨r1, r2, r3, r4, r5, r6, r7⟩ := resizeNR_spec s hWF
  have hmem : (kv.1, (slotL s.data j).value) ∈ occlist s.data := by
    apply mem_occlist.mpr
    exact ⟨j, by omega, hocc, hkey, rfl⟩
  have hmem2 : (kv.1, (slotL s.data j).value) ∈ occlist s.resizeNR.data := by
    have : (kv.1, (slotL s.data j).value) ∈ (occlist s.resizeNR.data : Multiset (K × V)) := by
      rw [r4]
      exact hmem
    exact this
  obtain ⟨j2, hj2, hocc2, hkey2, hval2⟩ := mem_occlist.mp hmem2
  have hj2b : j2 < s.resizeNR.buffer_size := by
    have := r1.1
    omega
  have hmatch := insertNR_match s.resizeNR kv.1 kv.2 r1 hj2b hocc2 hkey2
  have heq2 : s.insert kv = (s.resizeNR, j2) := by
    rw [heq]
    have : (kv.1, kv.2) = kv := rfl
    rw [← this]
    exact hmatch
  refine ⟨?_, ?_, ?_, ?_, ?_, ?_, ?_, ?_, ?_⟩
  · rw [heq2]
    refine ⟨r1, ?_⟩
    show 2 * s.resizeNR.cnt_all ≤ s.resizeNR.buffer_size + 2
    omega
  · rw [heq2]
    exact r4
  · rw [heq2]
    show s.resizeNR.cnt_all - s.resizeNR.cnt_dead = s.cnt_all - s.cnt_dead
    exact r5
  · rw [heq2]
    exact r3
  · rw [heq2]
    exact hj2b
  · rw [heq2]
    exact hocc2
  · rw [heq2]
    exact hkey2
  · rw [heq2]
    exact hval2
  · intro hle
    have hre : s.resizeNR = s := r6 hle
    rw [heq, hre]
    exact insertNR_match s kv.1 kv.2 hWF.1 hj hocc hkey

/-- Public `insert` of an absent key: the pair is added, the size grows by
one, and the returned slot holds the new pair. -/
lemma insert_absent_pub (s : HashMap K V) (kv : K × V) (hWF : WF s)
    (habs : ∀ j < s.buffer_size, ¬ ((slotL s.data j).status = Status.occupied ∧
      (slotL s.data j).key = kv.1)) :
    WF (s.insert kv).1 ∧
    (occlist (s.insert kv).1.data : Multiset (K × V)) =
      (occlist s.data : Multiset (K × V)) + {kv} ∧
    (s.insert kv).1.size = s.size + 1 ∧
    (s.insert kv).1.hasher = s.hasher ∧
    (s.insert kv).2 < (s.insert kv).1.buffer_size ∧
    (slotL (s.insert kv).1.data (s.insert kv).2).status = Status.occupied ∧
    (slotL (s.insert kv).1.data (s.insert kv).2).key = kv.1 ∧
    (slotL (s.insert kv).1.data (s.insert kv).2).value = kv.2 := by
  have hlen : s.data.length = s.buffer_size := hWF.1.1
  have heq := insert_eq_NR s kv (le_of_eq hlen)
  obtain ⟨r1, r2, r3, r4, r5, r6, r7⟩ := resizeNR_spec s hWF
  have habs2 : ∀ j < s.resizeNR.buffer_size,
      (slotL s.resizeNR.data j).status = Status.occupied →
      (slotL s.resizeNR.data j).key ≠ kv.1 := by
    intro j2 hj2 hocc2 hkey2
    have hmem2 : ((slotL s.resizeNR.data j2).key, (slotL s.resizeNR.data j2).value) ∈
        occlist s.resizeNR.data := by
      apply mem_occlist.mpr
      refine ⟨j2, ?_, hocc2, rfl, rfl⟩
      have := r1.1
      omega
    have hmem : ((slotL s.resizeNR.data j2).key, (slotL s.resizeNR.data j2).value) ∈
        occlist s.data := by
      have : ((slotL s.resizeNR.data j2).key, (slotL s.resizeNR.data j2).value) ∈
          (occlist s.data : Multiset (K × V)) := by
        rw [← r4]
        exact hmem2
      exact this
    obtain ⟨j0, hj0, hocc0, hkey0, hval0⟩ := mem_occlist.mp hmem
    exact habs j0 (by omega) ⟨hocc0, by rw [hkey0, hkey2]⟩
  have hlt2 : s.resizeNR.cnt_all < s.resizeNR.buffer_size := by
    have := r1.2.1
    omega
  obtain ⟨a1, a2, a3, a4, a5, a6, a7, a8, a9, a10, a11⟩ :=
    insertNR_absent_inv s.resizeNR kv.1 kv.2 r1 habs2 hlt2
  have hkveta : ((kv.1, kv.2) : K × V) = kv := rfl
  have heq2 : s.insert kv = s.resizeNR.insertNR (kv.1, kv.2) := by
    rw [heq, hkveta]
  have hdead_le : s.resizeNR.cnt_dead ≤ s.resizeNR.cnt_all := by
    have h1 := r1.2.2.1
    have h2 := r1.2.2.2.1
    have h3 := countNE_eq s.resizeNR.data
    omega
  rw [heq2]
  refine ⟨⟨a1, ?_⟩, ?_, ?_, by rw [a5, r3], by rw [← a4] at a7; exact a7, a8, a9, a10⟩
  · rw [a2, a4]
    omega
  · rw [a6, r4, hkveta]
  · show (s.resizeNR.insertNR (kv.1, kv.2)).1.cnt_all -
        (s.resizeNR.insertNR (kv.1, kv.2)).1.cnt_dead = s.cnt_all - s.cnt_dead + 1
    rw [a2, a3]
    omega

/-- Public `erase` of a present key: exactly that slot is tombstoned. -/
lemma erase_present_pub (s : HashMap K V) (k : K) (hWF : WF s) {j : Nat}
    (hj : j < s.buffer_size) (hocc : (slotL s.data j).status = Status.occupied)
    (hkey : (slotL s.data j).key = k) :
    WF (s.erase k) ∧
    (occlist (s.erase k).data : Multiset (K × V)) + {(k, (slotL s.data j).value)} =
      (occlist s.data : Multiset (K × V)) ∧
    (s.erase k).size + 1 = s.size ∧
    (s.erase k).hasher = s.hasher ∧
    (s.erase k).buffer_size = s.buffer_size ∧
    (∀ i < s.buffer_size, ¬ ((slotL (s.erase k).data i).status = Status.occupied ∧
      (slotL (s.erase k).data i).key = k)) := by
  obtain ⟨hInv, hload⟩ := hWF
  have heq := erase_found s k hInv hj hocc hkey
  obtain ⟨hlen, hcap16, hcall, hcdead, huniq, hdist, hchain, hrich⟩ := hInv
  have hjlen : j < s.data.length := by omega
  set tn : Node K V := { slotL s.data j with status := Status.tombstone } with htn
  have hself : slotL (s.data.set j tn) j = tn := slotL_set_self s.data hjlen tn
  have hother : ∀ q, q ≠ j → slotL (s.data.set j tn) q = slotL s.data q := by
    intro q hq
    exact slotL_set_ne s.data (fun h => hq h.symm) tn
  have hcNE := countP_set' s.data hjlen (fun nd => nd.status ≠ Status.empty) tn
  have hcT := countP_set' s.data hjlen (fun nd => nd.status = Status.tombstone) tn
  rw [if_pos (by rw [hocc]; simp), if_pos (by rw [htn]; simp)] at hcNE
  rw [if_neg (by rw [hocc]; simp), if_pos (by rw [htn])] at hcT
  have hcountNE : countNE (s.data.set j tn) = countNE s.data := by
    unfold countNE
    omega
  have hcountT : countTomb (s.data.set j tn) = countTomb s.data + 1 := by
    unfold countTomb
    omega
  have hoccpos : 1 ≤ countOcc s.data := by
    unfold countOcc
    apply List.countP_pos.mpr
    refine ⟨slotL s.data j, ?_, by simp [hocc]⟩
    rw [slotL_eq_get s.data hjlen]
    exact s.data.get_mem ..
  have habs' : ∀ i < s.buffer_size, ¬ ((slotL (s.data.set j tn) i).status = Status.occupied ∧
      (slotL (s.data.set j tn) i).key = k) := by
    intro i hi
    rintro ⟨hiocc, hikey⟩
    by_cases hij : i = j
    · rw [hij, hself] at hiocc
      rw [htn] at hiocc
      simp at hiocc
    · rw [hother i hij] at hiocc hikey
      have := huniq i hi j hj hiocc hocc (by rw [hikey, hkey])
      exact hij this
  have hInv' : TableInv (s.erase k) := by
    rw [heq]
    refine ⟨by simp [hlen], hcap16, by simp [hcountNE, hcall], by simp [hcountT, hcdead],
      ?_, ?_, ?_, ?_⟩
    · intro a ha b hb hocca hoccb hkeyab
      by_cases haj : a = j
      · rw [haj, hself, htn] at hocca
        simp at hocca
      · by_cases hbj : b = j
        · rw [hbj, hself, htn] at hoccb
          simp at hoccb
        · rw [hother a haj] at hocca hkeyab
          rw [hother b hbj] at hoccb hkeyab
          exact huniq a ha b hb hocca hoccb hkeyab
    · intro q hq hqocc
      by_cases hqj : q = j
      · rw [hqj, hself, htn] at hqocc
        simp at hqocc
      · rw [hother q hqj] at hqocc ⊢
        exact hdist q hq hqocc
    · intro q hq hqocc t ht
      by_cases hqj : q = j
      · rw [hqj, hself, htn] at hqocc
        simp at hqocc
      · rw [hother q hqj] at hqocc ht ⊢
        have hch := hchain q hq hqocc t ht
        by_cases hcj : probe s.buffer_size (s.hasher (slotL s.data q).key % s.buffer_size) t = j
        · rw [hcj, hself, htn]
          simp
        · rw [hother _ hcj]
          exact hch
    · intro q hq hqocc t ht hcocc
      by_cases hqj : q = j
      · rw [hqj, hself, htn] at hqocc
        simp at hqocc
      · rw [hother q hqj] at hqocc ht hcocc ⊢
        by_cases hcj : probe s.buffer_size (s.hasher (slotL s.data q).key % s.buffer_size) t = j
        · rw [hcj, hself, htn] at hcocc
          simp at hcocc
        · rw [hother _ hcj] at hcocc ⊢
          exact hrich q hq hqocc t ht hcocc
  refine ⟨⟨hInv', by rw [heq]; simp; omega⟩, ?_, ?_, by rw [heq], by rw [heq], ?_⟩
  · rw [heq]
    have hos := occ_set s.data hjlen tn
    have e1 : occlist [slotL s.data j] = [((slotL s.data j).key, (slotL s.data j).value)] := by
      rw [occlist_cons]
      simp [occlist, hocc]
    have e2 : occlist [tn] = ([] : List (K × V)) := by
      rw [occlist_cons]
      simp [occlist, htn]
    rw [e1, e2] at hos
    simp only at hos ⊢
    rw [hkey] at hos
    simpa using hos
  · rw [heq]
    unfold HashMap.size
    simp only
    have : countTomb s.data ≤ countNE s.data := by
      have := countNE_eq s.data
      omega
    have := countNE_eq s.data
    omega
  · rw [heq]
    exact habs'

/-- The default-constructed table is well-formed. -/
lemma mk0_WF (hasher : K → Nat) : WF (HashMap.mk0 (V := V) hasher) := by
  refine ⟨TableInv_fresh hasher 16 (le_refl _), by simp [HashMap.mk0]⟩

lemma copyAssign_eq (dst src : HashMap K V) : copyAssign dst src = src := rfl

lemma clear_eq (s : HashMap K V) : s.clear = HashMap.mk0 s.hasher := rfl

lemma mem_liveKeys (s : HashMap K V) (k : K) :
    k ∈ liveKeys s ↔ ∃ j < s.data.length, (slotL s.data j).status = Status.occupied ∧
      (slotL s.data j).key = k := by
  unfold liveKeys
  rw [Multiset.mem_toFinset]
  constructor
  · intro h
    obtain ⟨pr, hpr, hfst⟩ := Multiset.mem_map.mp h
    have hpr' : pr ∈ occlist s.data := hpr
    obtain ⟨j, hj, ho, hk, hv⟩ := mem_occlist.mp hpr'
    exact ⟨j, hj, ho, by rw [hk, hfst]⟩
  · rintro ⟨j, hj, ho, hk⟩
    apply Multiset.mem_map.mpr
    refine ⟨(k, (slotL s.data j).value), ?_, rfl⟩
    show (k, (slotL s.data j).value) ∈ occlist s.data
    exact mem_occlist.mpr ⟨j, hj, ho, hk, rfl⟩

lemma liveKeys_mk0 (hasher : K → Nat) : liveKeys (HashMap.mk0 (V := V) hasher) = ∅ := by
  unfold liveKeys HashMap.mk0
  rw [show (HashMap.mk (V := V) hasher (freshData 16) 0 0 16).data = freshData 16 from rfl,
    occlist_fresh]
  rfl

lemma size_eq_card (s : HashMap K V) (hWF : WF s) : s.size = (liveKeys s).card := by
  obtain ⟨⟨hlen, hcap16, hcall, hcdead, huniq, hdist, hchain, hrich⟩, hload⟩ := hWF
  have hnk := nodup_occKeys s.data (by
    intro i hi j hj ho1 ho2 hk
    exact huniq i (by omega) j (by omega) ho1 ho2 hk)
  unfold HashMap.size liveKeys
  have hmn : (Multiset.map Prod.fst (occlist s.data : Multiset (K × V))).Nodup := by
    rw [show (Multiset.map Prod.fst (occlist s.data : Multiset (K × V))) =
      (((occlist s.data).map Prod.fst : List K) : Multiset K) from rfl]
    exact hnk
  rw [Multiset.toFinset_card_of_nodup hmn]
  rw [Multiset.card_map]
  rw [show Multiset.card (occlist s.data : Multiset (K × V)) = (occlist s.data).length from rfl]
  rw [length_occlist]
  have := countNE_eq s.data
  omega

/-- One public operation preserves well-formedness and tracks the
specification-level key set. -/
lemma step_sim (s : HashMap K V) (M : Finset K) (op : Op K V)
    (hWF : WF s) (hM : liveKeys s = M) :
    WF (step s op) ∧
    liveKeys (step s op) = (match op with
      | Op.ins kv => insert kv.1 M
      | Op.del k => M.erase k
      | Op.clr => (∅ : Finset K)
      | Op.idx k => insert k M) := by
  have hlen : s.data.length = s.buffer_size := hWF.1.1
  cases op with
  | ins kv =>
    show WF (s.insert kv).1 ∧ liveKeys (s.insert kv).1 = insert kv.1 M
    by_cases hp : ∃ j < s.buffer_size, (slotL s.data j).status = Status.occupied ∧
        (slotL s.data j).key = kv.1
    · obtain ⟨j, hj, hocc, hkey⟩ := hp
      obtain ⟨w1, w2, w3, w4, w5, w6, w7, w8, w9⟩ := insert_present s kv hWF hj hocc hkey
      have hkin : kv.1 ∈ M := by
        rw [← hM]
        exact (mem_liveKeys s kv.1).mpr ⟨j, by omega, hocc, hkey⟩
      refine ⟨w1, ?_⟩
      unfold liveKeys
      rw [w2]
      rw [show (Multiset.map Prod.fst (occlist s.data : Multiset (K × V))).toFinset =
        liveKeys s from rfl, hM]
      exact (Finset.insert_eq_self.mpr hkin).symm
    · push_neg at hp
      have habs : ∀ j < s.buffer_size, ¬ ((slotL s.data j).status = Status.occupied ∧
          (slotL s.data j).key = kv.1) := by
        intro j hj
        rintro ⟨h1, h2⟩
        exact hp j hj h1 h2
      obtain ⟨w1, w2, w3, w4, w5, w6, w7, w8⟩ := insert_absent_pub s kv hWF habs
      refine ⟨w1, ?_⟩
      unfold liveKeys
      rw [w2, Multiset.map_add, Multiset.toFinset_add]
      rw [show (Multiset.map Prod.fst (occlist s.data : Multiset (K × V))).toFinset =
        liveKeys s from rfl, hM]
      rw [show Multiset.map Prod.fst ({kv} : Multiset (K × V)) = ({kv.1} : Multiset K) from rfl]
      rw [Multiset.toFinset_singleton, Finset.union_comm, ← Finset.insert_eq]
  | del k =>
    show WF (s.erase k) ∧ liveKeys (s.erase k) = M.erase k
    by_cases hp : ∃ j < s.buffer_size, (slotL s.data j).status = Status.occupied ∧
        (slotL s.data j).key = k
    · obtain ⟨j, hj, hocc, hkey⟩ := hp
      obtain ⟨w1, w2, w3, w4, w5, w6⟩ := erase_present_pub s k hWF hj hocc hkey
      have hknotin : k ∉ liveKeys (s.erase k) := by
        rw [mem_liveKeys]
        rintro ⟨i, hi, hiocc, hikey⟩
        have hi' : i < s.buffer_size := by
          have := w1.1.1
          omega
        exact w6 i hi' ⟨hiocc, hikey⟩
      have hins : insert k (liveKeys (s.erase k)) = M := by
        rw [← hM]
        unfold liveKeys
        rw [← w2, Multiset.map_add, Multiset.toFinset_add]
        rw [show Multiset.map Prod.fst ({(k, (slotL s.data j).value)} : Multiset (K × V)) =
          ({k} : Multiset K) from rfl]
        rw [Multiset.toFinset_singleton, Finset.union_comm, ← Finset.insert_eq]
      refine ⟨w1, ?_⟩
      rw [← hins, Finset.erase_insert hknotin]
    · push_neg at hp
      have habs : ∀ j < s.buffer_size, ¬ ((slotL s.data j).status = Status.occupied ∧
          (slotL s.data j).key = k) := by
        intro j hj
        rintro ⟨h1, h2⟩
        exact hp j hj h1 h2
      have heq := erase_absent s k habs
      show WF (s.erase k) ∧ liveKeys (s.erase k) = M.erase k
      rw [heq]
      refine ⟨hWF, ?_⟩
      have hknotin : k ∉ M := by
        rw [← hM, mem_liveKeys]
        rintro ⟨i, hi, hiocc, hikey⟩
        exact habs i (by omega) ⟨hiocc, hikey⟩
      rw [hM, Finset.erase_eq_of_not_mem hknotin]
  | clr =>
    show WF s.clear ∧ liveKeys s.clear = ∅
    rw [clear_eq]
    exact ⟨mk0_WF s.hasher, liveKeys_mk0 s.hasher⟩
  | idx k =>
    show WF (s.opIndex k).1 ∧ liveKeys (s.opIndex k).1 = insert k M
    unfold HashMap.opIndex
    by_cases hif : s.findIdx k = s.data.length
    · simp only [if_pos hif]
      have habs : ∀ j < s.buffer_size, ¬ ((slotL s.data j).status = Status.occupied ∧
          (slotL s.data j).key = k) := by
        intro j hj
        rintro ⟨h1, h2⟩
        have := find_found s k hWF.1 hj h1 h2
        omega
      obtain ⟨w1, w2, w3, w4, w5, w6, w7, w8⟩ :=
        insert_absent_pub s (k, default) hWF (by
          intro j hj
          exact habs j hj)
      refine ⟨w1, ?_⟩
      unfold liveKeys
      rw [w2, Multiset.map_add, Multiset.toFinset_add]
      rw [show (Multiset.map Prod.fst (occlist s.data : Multiset (K × V))).toFinset =
        liveKeys s from rfl, hM]
      rw [show Multiset.map Prod.fst ({((k : K), (default : V))} : Multiset (K × V)) =
        ({k} : Multiset K) from rfl]
      rw [Multiset.toFinset_singleton, Finset.union_comm, ← Finset.insert_eq]
    · simp only [if_neg hif]
      have hne : s.findIdx k ≠ s.buffer_size := by
        rw [← hlen]
        exact hif
      obtain ⟨h1, h2, h3⟩ := find_hit s k hne
      refine ⟨hWF, ?_⟩
      have hkin : k ∈ M := by
        rw [← hM]
        exact (mem_liveKeys s k).mpr ⟨s.findIdx k, by omega, h2, h3⟩
      rw [hM, Finset.insert_eq_self.mpr hkin]

/-- Running any command sequence from the default-constructed table keeps
the table well-formed and its live keys equal to the specification-level
key set. -/
lemma run_spec (hasher : K → Nat) (ops : List (Op K V)) :
    WF (run hasher ops) ∧ liveKeys (run hasher ops) = modelKeys ops := by
  suffices h : ∀ (l : List (Op K V)) (s : HashMap K V) (M : Finset K),
      WF s → liveKeys s = M →
      WF (l.foldl step s) ∧
      liveKeys (l.foldl step s) = l.foldl
        (fun M op => match op with
          | Op.ins kv => insert kv.1 M
          | Op.del k => M.erase k
          | Op.clr => (∅ : Finset K)
          | Op.idx k => insert k M) M by
    exact h ops (HashMap.mk0 hasher) ∅ (mk0_WF hasher) (liveKeys_mk0 hasher)
  intro l
  induction l with
  | nil =>
    intro s M hWF hM
    exact ⟨hWF, hM⟩
  | cons op rest ih =>
    intro s M hWF hM
    obtain ⟨h1, h2⟩ := step_sim s M op hWF hM
    exact ih (step s op) _ h1 h2

lemma exists_empty_slot (s : HashMap K V) (hWF : WF s) :
    ∃ e < s.buffer_size, (slotL s.data e).status = Status.empty := by
  obtain ⟨⟨hlen, hcap16, hcall, hcdead, _, _, _, _⟩, hload⟩ := hWF
  have hne : countNE s.data < s.data.length := by omega
  obtain ⟨j, hj, hje⟩ := exists_empty_of_countNE_lt hne
  exact ⟨j, by omega, hje⟩

lemma erase_find (s : HashMap K V) (k : K) (hWF : WF s) :
    (s.erase k).findIdx k = (s.erase k).buffer_size := by
  by_cases hp : ∃ j < s.buffer_size, (slotL s.data j).status = Status.occupied ∧
      (slotL s.data j).key = k
  · obtain ⟨j, hj, hocc, hkey⟩ := hp
    obtain ⟨w1, w2, w3, w4, w5, w6⟩ := erase_present_pub s k hWF hj hocc hkey
    apply find_not_found
    rw [w5]
    exact w6
  · push_neg at hp
    have habs : ∀ j < s.buffer_size, ¬ ((slotL s.data j).status = Status.occupied ∧
        (slotL s.data j).key = k) := by
      intro j hj
      rintro ⟨h1, h2⟩
      exact hp j hj h1 h2
    rw [erase_absent s k habs]
    exact find_not_found s k habs

/-- Claim C1, counterexample: the round-trip claim as stated fails when the
key is already present — on a table mapping 0 to 1, after `insert((0,2))`,
`find(0)` returns the slot still holding value 1, not the just-inserted 2
(idempotent insert keeps the first value). -/
theorem c1_roundtrip_counterexample :
    (cxState.insert (0, 2)).1.findIdx 0 < (cxState.insert (0, 2)).1.buffer_size ∧
    (slotL (cxState.insert (0, 2)).1.data ((cxState.insert (0, 2)).1.findIdx 0)).value = 1 ∧
    ¬ (slotL (cxState.insert (0, 2)).1.data
        ((cxState.insert (0, 2)).1.findIdx 0)).value = 2 := by
  have hWF : WF cxState := by decide
  obtain ⟨w1, w2, w3, w4, w5, w6, w7, w8, w9⟩ :=
    insert_present cxState (0, 2) hWF (j := 0) (by decide) (by decide) (by decide)
  have hins := w9 (by decide)
  rw [hins]
  have hfind := find_found cxState 0 hWF.1 (j := 0) (by decide) (by decide) (by decide)
  show cxState.findIdx 0 < cxState.buffer_size ∧
    (slotL cxState.data (cxState.findIdx 0)).value = 1 ∧
    ¬ (slotL cxState.data (cxState.findIdx 0)).value = 2
  rw [hfind]
  refine ⟨by decide, by decide, by decide⟩

/-- Claim C1 (amended): on every well-formed table, if the key is absent
then after `insert((k,v))` the scan `find(k)` returns a slot holding value
`v`; and after `erase(k)`, `find(k)` returns the end index — the key is
absent.  (The original claim is false when `k` is already mapped to a
different value, since duplicate insertion keeps the first value.) -/
theorem c1_roundtrip (s : HashMap K V) (k : K) (v : V) (hWF : WF s) :
    ((∀ j < s.buffer_size, ¬ ((slotL s.data j).status = Status.occupied ∧
        (slotL s.data j).key = k)) →
      (s.insert (k, v)).1.findIdx k < (s.insert (k, v)).1.buffer_size ∧
      (slotL (s.insert (k, v)).1.data ((s.insert (k, v)).1.findIdx k)).value = v) ∧
    (s.erase k).findIdx k = (s.erase k).buffer_size := by
  constructor
  · intro habs
    obtain ⟨w1, w2, w3, w4, w5, w6, w7, w8⟩ := insert_absent_pub s (k, v) hWF (by
      intro j hj
      exact habs j hj)
    have hfind := find_found (s.insert (k, v)).1 k w1.1 w5 w6 w7
    rw [hfind]
    exact ⟨w5, w8⟩
  · exact erase_find s k hWF

/-- Claim C1 witness data. -/
theorem c1_roundtrip_witness :
    WF (HashMap.mk0 (V := Nat) (fun x => x)) ∧
    (((∀ j < (HashMap.mk0 (V := Nat) (fun x => x)).buffer_size,
        ¬ ((slotL (HashMap.mk0 (V := Nat) (fun x => x)).data j).status = Status.occupied ∧
          (slotL (HashMap.mk0 (V := Nat) (fun x => x)).data j).key = 3)) →
      ((HashMap.mk0 (V := Nat) (fun x => x)).insert (3, 7)).1.findIdx 3 <
        ((HashMap.mk0 (V := Nat) (fun x => x)).insert (3, 7)).1.buffer_size ∧
      (slotL ((HashMap.mk0 (V := Nat) (fun x => x)).insert (3, 7)).1.data
        (((HashMap.mk0 (V := Nat) (fun x => x)).insert (3, 7)).1.findIdx 3)).value = 7) ∧
    ((HashMap.mk0 (V := Nat) (fun x => x)).erase 3).findIdx 3 =
      ((HashMap.mk0 (V := Nat) (fun x => x)).erase 3).buffer_size) :=
  ⟨by decide, c1_roundtrip (HashMap.mk0 (fun x => x)) 3 7 (by decide)⟩

/-- Claim C2: inserting a key already mapped to some value is a no-op on
the mapping — the occupied pairs are unchanged (so the first value is
kept, nothing is overwritten), `size()` is unchanged, and the returned
iterator points at the occupied slot holding the key with its original
value.  When the growth test does not fire the whole state is unchanged
and the returned index is exactly the key's slot. -/
theorem c2_idempotent_insert (s : HashMap K V) (kv : K × V) (hWF : WF s) (j : Nat)
    (hj : j < s.buffer_size) (hocc : (slotL s.data j).status = Status.occupied)
    (hkey : (slotL s.data j).key = kv.1) :
    (occlist (s.insert kv).1.data : Multiset (K × V)) = (occlist s.data : Multiset (K × V)) ∧
    (s.insert kv).1.size = s.size ∧
    (s.insert kv).2 < (s.insert kv).1.buffer_size ∧
    (slotL (s.insert kv).1.data (s.insert kv).2).status = Status.occupied ∧
    (slotL (s.insert kv).1.data (s.insert kv).2).key = kv.1 ∧
    (slotL (s.insert kv).1.data (s.insert kv).2).value = (slotL s.data j).value ∧
    (2 * s.cnt_all ≤ s.buffer_size → s.insert kv = (s, j)) := by
  obtain ⟨w1, w2, w3, w4, w5, w6, w7, w8, w9⟩ := insert_present s kv hWF hj hocc hkey
  exact ⟨w2, w3, w5, w6, w7, w8, w9⟩

/-- Claim C2 witness data. -/
theorem c2_idempotent_insert_witness :
    WF c2State ∧ 5 < c2State.buffer_size ∧
    (slotL c2State.data 5).status = Status.occupied ∧ (slotL c2State.data 5).key = 5 ∧
    ((occlist (c2State.insert (5, 99)).1.data : Multiset (Nat × Nat)) =
       (occlist c2State.data : Multiset (Nat × Nat)) ∧
     (c2State.insert (5, 99)).1.size = c2State.size ∧
     (c2State.insert (5, 99)).2 < (c2State.insert (5, 99)).1.buffer_size ∧
     (slotL (c2State.insert (5, 99)).1.data (c2State.insert (5, 99)).2).status =
       Status.occupied ∧
     (slotL (c2State.insert (5, 99)).1.data (c2State.insert (5, 99)).2).key = 5 ∧
     (slotL (c2State.insert (5, 99)).1.data (c2State.insert (5, 99)).2).value =
       (slotL c2State.data 5).value ∧
     (2 * c2State.cnt_all ≤ c2State.buffer_size → c2State.insert (5, 99) = (c2State, 5))) :=
  ⟨by decide, by decide, by decide, by decide,
   c2_idempotent_insert c2State (5, 99) (by decide) 5 (by decide) (by decide) (by decide)⟩

/-- Claim C3: after every sequence of operations from a fresh table, each
key occupies at most one occupied slot, and `size()` equals the number of
distinct keys inserted and not subsequently erased (the specification-level
key set `modelKeys`). -/
theorem c3_uniqueness_size (hasher : K → Nat) (ops : List (Op K V)) :
    (∀ i < (run hasher ops).buffer_size, ∀ j < (run hasher ops).buffer_size,
      (slotL (run hasher ops).data i).status = Status.occupied →
      (slotL (run hasher ops).data j).status = Status.occupied →
      (slotL (run hasher ops).data i).key = (slotL (run hasher ops).data j).key → i = j) ∧
    (run hasher ops).size = (modelKeys ops).card := by
  obtain ⟨hWF, hM⟩ := run_spec hasher ops
  refine ⟨hWF.1.2.2.2.2.1, ?_⟩
  rw [size_eq_card _ hWF, hM]

/-- Claim C4: the `find` scan probes `h, h+1, …` (mod capacity), skips over
slots that neither match nor are empty (tombstones and occupied slots with
other keys), returns the first occupied match, returns `end` at the first
empty slot, and returns `end` after a full wrap. -/
theorem c4_find_contract (s : HashMap K V) (k : K) :
    ∃ t, t ≤ s.buffer_size ∧
      (∀ u < t, ¬ matchAt s k u ∧ ¬ emptyAt s k u) ∧
      ((t = s.buffer_size ∧ s.findIdx k = s.buffer_size) ∨
       (t < s.buffer_size ∧ matchAt s k t ∧
        s.findIdx k = probe s.buffer_size (s.get_hash k) t) ∨
       (t < s.buffer_size ∧ ¬ matchAt s k t ∧ emptyAt s k t ∧
        s.findIdx k = s.buffer_size)) := by
  obtain ⟨t, ht0, htc, hpre, hcase⟩ :=
    findAux_char s.data s.buffer_size (s.get_hash k) k s.buffer_size 0 (by omega)
      (Nat.zero_le _)
  exact ⟨t, htc, fun u hu => hpre u (Nat.zero_le _) hu, hcase⟩

/-- Claim C5: probe-chain integrity in every reachable state — for every
occupied slot `i` holding key `k`, the stored distance reaches `i` from the
ideal index `hash(k) mod capacity`, and no slot on the chain before `i` is
empty; moreover every further operation (insert with growth, erase,
`operator[]`, `clear`) preserves the full invariant. -/
theorem c5_chain_integrity (hasher : K → Nat) (ops : List (Op K V)) :
    (∀ i < (run hasher ops).buffer_size,
      (slotL (run hasher ops).data i).status = Status.occupied →
      probe (run hasher ops).buffer_size
        ((run hasher ops).get_hash (slotL (run hasher ops).data i).key)
        (slotL (run hasher ops).data i).dist_to_ideal = i ∧
      ∀ t < (slotL (run hasher ops).data i).dist_to_ideal,
        (slotL (run hasher ops).data
          (probe (run hasher ops).buffer_size
            ((run hasher ops).get_hash (slotL (run hasher ops).data i).key) t)).status ≠
          Status.empty) ∧
    (∀ op : Op K V, WF (step (run hasher ops) op)) := by
  obtain ⟨hWF, hM⟩ := run_spec hasher ops
  constructor
  · intro i hi hocc
    obtain ⟨hlen, hcap16, hcall, hcdead, huniq, hdist, hchain, hrich⟩ := hWF.1
    constructor
    · unfold probe
      exact (hdist i hi hocc).2
    · exact hchain i hi hocc
  · intro op
    exact (step_sim (run hasher ops) (liveKeys (run hasher ops)) op hWF rfl).1

/-- Claim C6: growth policy — when `cnt_all` exceeds half the capacity at
the start of an insertion, the capacity doubles, the counters reset and the
occupied pairs are replayed in slot order (that is the definition of
`resizeNR`, which every `insert` runs first): afterwards the table has the
doubled capacity, holds exactly the previously occupied pairs, and contains
no tombstones. -/
theorem c6_growth (s : HashMap K V) (hWF : WF s) (ht : s.buffer_size < 2 * s.cnt_all) :
    (∀ kv : K × V, s.insert kv = s.resizeNR.insertNR kv) ∧
    s.resizeNR.buffer_size = 2 * s.buffer_size ∧
    s.resizeNR.cnt_dead = 0 ∧
    s.resizeNR.cnt_all = countOcc s.data ∧
    (∀ j, (slotL s.resizeNR.data j).status ≠ Status.tombstone) ∧
    (occlist s.resizeNR.data : Multiset (K × V)) = (occlist s.data : Multiset (K × V)) ∧
    s.resizeNR.hasher = s.hasher ∧
    s.resizeNR.data.length = 2 * s.buffer_size := by
  obtain ⟨r1, r2, r3, r4, r5, r6, r7⟩ := resizeNR_spec s hWF
  obtain ⟨t1, t2, t3, t4⟩ := r7 ht
  refine ⟨?_, t1, t2, t3, t4, r4, r3, ?_⟩
  · intro kv
    exact insert_eq_NR s kv (le_of_eq hWF.1.1)
  · rw [r1.1, t1]

/-- Claim C6 witness data: nine keys in a capacity of 16 trip the growth
test `16 < 2 * 9`. -/
theorem c6_growth_witness :
    WF c6State ∧ c6State.buffer_size < 2 * c6State.cnt_all ∧
    ((∀ kv : Nat × Nat, c6State.insert kv = c6State.resizeNR.insertNR kv) ∧
     c6State.resizeNR.buffer_size = 2 * c6State.buffer_size ∧
     c6State.resizeNR.cnt_dead = 0 ∧
     c6State.resizeNR.cnt_all = countOcc c6State.data ∧
     (∀ j, (slotL c6State.resizeNR.data j).status ≠ Status.tombstone) ∧
     (occlist c6State.resizeNR.data : Multiset (Nat × Nat)) =
       (occlist c6State.data : Multiset (Nat × Nat)) ∧
     c6State.resizeNR.hasher = c6State.hasher ∧
     c6State.resizeNR.data.length = 2 * c6State.buffer_size) :=
  ⟨by decide, by decide, c6_growth c6State (by decide) (by decide)⟩

/-- Claim C7: `at` fails exactly when `find` returns `end()`; on a
well-formed table this happens exactly when no occupied slot holds the
key, and a successful `at` returns the value stored for the key.  `at` is
a pure read — it takes the table by constant reference and returns no new
state, so the table is unchanged in both cases. -/
theorem c7_at_key_not_found (s : HashMap K V) (k : K) (hWF : WF s) :
    ((∃ e, s.atKey k = Except.error e) ↔ s.findIdx k = s.data.length) ∧
    (s.findIdx k = s.data.length ↔
      ∀ j < s.buffer_size, ¬ ((slotL s.data j).status = Status.occupied ∧
        (slotL s.data j).key = k)) ∧
    (∀ v, s.atKey k = Except.ok v →
      ∃ j < s.buffer_size, (slotL s.data j).status = Status.occupied ∧
        (slotL s.data j).key = k ∧ (slotL s.data j).value = v) := by
  have hlen : s.data.length = s.buffer_size := hWF.1.1
  refine ⟨?_, ?_, ?_⟩
  · unfold HashMap.atKey
    by_cases hif : s.findIdx k = s.data.length
    · simp [hif]
    · simp [hif]
  · constructor
    · intro hfe j hj
      rintro ⟨hocc, hkey⟩
      have := find_found s k hWF.1 hj hocc hkey
      omega
    · intro habs
      have := find_not_found s k habs
      omega
  · intro v hv
    unfold HashMap.atKey at hv
    by_cases hif : s.findIdx k = s.data.length
    · simp [hif] at hv
    · simp only [if_neg hif] at hv
      have hne : s.findIdx k ≠ s.buffer_size := by omega
      obtain ⟨h1, h2, h3⟩ := find_hit s k hne
      refine ⟨s.findIdx k, h1, h2, h3, ?_⟩
      have : s.refAt (s.findIdx k) = v := by
        injection hv
      rw [← this]
      rfl

/-- Claim C7 witness data (the spec's scenario: a table holding
`{(2,3),(-7,-13),(0,8)}`; `at(8)` raises KeyNotFound). -/
theorem c7_at_key_not_found_witness :
    WF c7State ∧
    (((∃ e, c7State.atKey 8 = Except.error e) ↔ c7State.findIdx 8 = c7State.data.length) ∧
     (c7State.findIdx 8 = c7State.data.length ↔
       ∀ j < c7State.buffer_size, ¬ ((slotL c7State.data j).status = Status.occupied ∧
         (slotL c7State.data j).key = 8)) ∧
     (∀ v, c7State.atKey 8 = Except.ok v →
       ∃ j < c7State.buffer_size, (slotL c7State.data j).status = Status.occupied ∧
         (slotL c7State.data j).key = 8 ∧ (slotL c7State.data j).value = v)) :=
  ⟨by decide, c7_at_key_not_found c7State 8 (by decide)⟩

/-- Claim C8: `clear` replaces the table by a freshly default-constructed
table with the same hash functor — capacity back to the default 16, both
counters zero, every slot empty — so every subsequent operation sequence
behaves exactly as on a fresh table. -/
theorem c8_clear_fresh (s : HashMap K V) :
    s.clear = HashMap.mk0 s.hasher ∧
    s.clear.buffer_size = 16 ∧
    s.clear.cnt_all = 0 ∧
    s.clear.cnt_dead = 0 ∧
    s.clear.hasher = s.hasher ∧
    (∀ j < s.clear.buffer_size, (slotL s.clear.data j).status = Status.empty) ∧
    (∀ ops : List (Op K V), ops.foldl step s.clear = run s.hasher ops) := by
  refine ⟨rfl, rfl, rfl, rfl, rfl, ?_, ?_⟩
  · intro j hj
    show (slotL (freshData 16) j).status = Status.empty
    rw [slotL_fresh]
    rfl
  · intro ops
    rfl

/-- Claim C9: copy assignment (and the copy constructor, which delegates to
it) copies every member — hash functor, slot array, both counters and the
capacity — so the copy is observably identical to the source, and in the
value semantics of this model running any operation sequence on the copy
computes exactly what it computes on the source while the source state `s`
itself is an unchanged immutable value. -/
theorem c9_copy_independence (dst src : HashMap K V) :
    copyAssign dst src = src ∧
    (copyAssign dst src).hasher = src.hasher ∧
    (copyAssign dst src).data = src.data ∧
    (copyAssign dst src).cnt_all = src.cnt_all ∧
    (copyAssign dst src).cnt_dead = src.cnt_dead ∧
    (copyAssign dst src).buffer_size = src.buffer_size ∧
    (∀ ops : List (Op K V), ops.foldl step (copyAssign dst src) = ops.foldl step src) := by
  exact ⟨rfl, rfl, rfl, rfl, rfl, rfl, fun ops => rfl⟩

/-- Claim C10: in every reachable state, after the growth check the
occupied-plus-tombstone count is at most half the capacity, so an empty
slot always exists; consequently `insert` always returns an in-range slot
index (its fall-through `end()` return is unreachable), and the `find` and
`erase` scans always meet a stopping slot (match or empty) before wrapping,
so their full-wrap returns are unreachable too. -/
theorem c10_empty_slot_exists (hasher : K → Nat) (ops : List (Op K V)) (kv : K × V)
    (k k2 : K) :
    2 * (run hasher ops).resizeNR.cnt_all ≤ (run hasher ops).resizeNR.buffer_size ∧
    (∃ j < (run hasher ops).resizeNR.buffer_size,
      (slotL (run hasher ops).resizeNR.data j).status = Status.empty) ∧
    ((run hasher ops).insert kv).2 < ((run hasher ops).insert kv).1.buffer_size ∧
    (∃ t < (run hasher ops).buffer_size, matchAt (run hasher ops) k t ∨
      emptyAt (run hasher ops) k t) ∧
    (∃ t < (run hasher ops).buffer_size, emptyAt (run hasher ops) k2 t) := by
  obtain ⟨hWF, _⟩ := run_spec hasher ops
  obtain ⟨r1, r2, r3, r4, r5, r6, r7⟩ := resizeNR_spec (run hasher ops) hWF
  refine ⟨r2, ?_, ?_, ?_, ?_⟩
  · exact exists_empty_slot _ ⟨r1, by omega⟩
  · by_cases hp : ∃ j < (run hasher ops).buffer_size,
        (slotL (run hasher ops).data j).status = Status.occupied ∧
        (slotL (run hasher ops).data j).key = kv.1
    · obtain ⟨j, hj, hocc, hkey⟩ := hp
      exact (insert_present _ kv hWF hj hocc hkey).2.2.2.2.1
    · push_neg at hp
      exact (insert_absent_pub _ kv hWF (by
        intro j hj
        rintro ⟨h1, h2⟩
        exact hp j hj h1 h2)).2.2.2.2.1
  · obtain ⟨e, he, hee⟩ := exists_empty_slot _ hWF
    obtain ⟨t, ht, hpt⟩ := probe_surj ((run hasher ops).get_hash k) he
    refine ⟨t, ht, Or.inr ?_⟩
    show (slotL (run hasher ops).data
      (probe (run hasher ops).buffer_size ((run hasher ops).get_hash k) t)).status =
      Status.empty
    rw [hpt]
    exact hee
  · obtain ⟨e, he, hee⟩ := exists_empty_slot _ hWF
    obtain ⟨t, ht, hpt⟩ := probe_surj ((run hasher ops).get_hash k2) he
    refine ⟨t, ht, ?_⟩
    show (slotL (run hasher ops).data
      (probe (run hasher ops).buffer_size ((run hasher ops).get_hash k2) t)).status =
      Status.empty
    rw [hpt]
    exact hee

end RobinHood
